import Mathlib

/-!
# mathfs: path classification, operand validation, result rendering and reads

A shallow embedding of `mathfs.c`.

Representation conventions.

* A C string is the list of its characters before the terminating NUL; `p + k` on a
  `char *` is `List.drop k`; `strcmp(a, b) == 0` is equality of lists.
* `int`, `unsigned int`, `size_t` and `off_t` values are integers, reduced modulo the
  width of the type at the places where the C arithmetic can wrap.
* A function pointer stored in the `builtins` table is a constructor of `MathFn`, so that
  comparing pointers is comparing constructors.
-/

namespace Mathfs

/-! ## Strings -/

/-- `strncmp(s1, s2, n) == 0`: the first `n` characters (fewer when a string ends) agree. -/
def strncmp_eq (s1 s2 : List Char) (n : Nat) : Bool :=
  s1.take n == s2.take n

/-- `strchr(s, c)` for `c` other than NUL: the suffix starting at the first `c`, or NULL. -/
def strchr (s : List Char) (c : Char) : Option (List Char) :=
  match s with
  | [] => none
  | x :: xs => if x = c then some (x :: xs) else strchr xs c

/-- `isdigit` of `<ctype.h>` in the C locale. -/
def isdigit (c : Char) : Bool :=
  c.isDigit

/-! ## Operand validation -/

/-- The `for` loop of `isNum`: `cs` is the text from `s[i]` on, `dp` the decimal points
counted so far; the value is what `isNum` returns. -/
def isNum_loop : List Char → Nat → Int
  | [], dp => if dp ≤ 1 then 1 else 0
  | c :: cs, dp =>
    if c ≠ '.' ∧ !isdigit c then 0
    else isNum_loop cs (if c = '.' then dp + 1 else dp)

/-- `int isNum(const char *s)`. The empty string has `s[0] == 0`, which fails the test on the
first character. -/
def isNum (s : List Char) : Int :=
  match s with
  | [] => 0
  | c :: cs =>
    if c ≠ '-' ∧ c ≠ '+' ∧ c ≠ '.' ∧ !isdigit c then 0
    else isNum_loop cs (if c = '.' then 1 else 0)

/-! ## The table of operations -/

/-- `enum PathResults`. -/
inductive PathResults where
  | mf_invalid
  | mf_dir
  | mf_doc
  | mf_file
  deriving DecidableEq, Repr

/-- The seven functions whose addresses the table holds. -/
inductive MathFn where
  | bi_factor
  | bi_fib
  | bi_add
  | bi_sub
  | bi_mul
  | bi_div
  | bi_exp
  deriving DecidableEq, Repr

/-- `struct bi_command`. -/
structure bi_command where
  path : List Char
  nops : Int
  f : MathFn
  doc : List Char

/-- `docdir`. -/
def docdir : List Char := "/doc".toList

/-- `max_builtins`. -/
def max_builtins : Nat := 7

/-- `builtins[]`. -/
def builtins : List bi_command :=
  [ ⟨"/factor".toList, 1, .bi_factor,
      "Prime factorization.\nThe file factor/a contains all the prime factors of a.\n".toList⟩,
    ⟨"/fib".toList, 1, .bi_fib,
      "Fibonacci Sequence.\nThe file fib/a contains the fibonacci sequence from 1 to a.\n".toList⟩,
    ⟨"/add".toList, 2, .bi_add, "Addition.\nThe file add/a/b contains a+b.\n".toList⟩,
    ⟨"/sub".toList, 2, .bi_sub, "Subtraction.\nThe file sub/a/b contains a-b.\n".toList⟩,
    ⟨"/mul".toList, 2, .bi_mul, "Multiplication.\nThe file mul/a/b contains a*b.\n".toList⟩,
    ⟨"/div".toList, 2, .bi_div, "Division.\nThe file div/a/b contains a/b.\n".toList⟩,
    ⟨"/exp".toList, 2, .bi_exp, "Exponent\nThe file exp/a/b contains a^b.\n".toList⟩ ]

/-- `builtins[i]`; the index is below `max_builtins` at every use in the program. -/
def builtin (i : Nat) : bi_command :=
  builtins.getD i ⟨[], 0, .bi_factor, []⟩

/-! ## Path classification -/

/-- `enum PathResults pathType(const char *path, int i)`. -/
def pathType (path : List Char) (i : Nat) : PathResults :=
  if path = (builtin i).path then
    .mf_dir
  else if path.drop (builtin i).path.length = docdir then
    .mf_doc
  else if (builtin i).nops = 1 then
    if isNum (path.drop ((builtin i).path.length + 1)) ≠ 0 then .mf_file else .mf_invalid
  else
    match strchr (path.drop ((builtin i).path.length + 1)) '/' with
    | some r => if isNum (r.drop 1) ≠ 0 then .mf_file else .mf_invalid
    | none =>
      if isNum (path.drop ((builtin i).path.length + 1)) ≠ 0 then .mf_dir else .mf_invalid

/-! ## Floating point -/

/-- A `double` (IEEE-754 binary64). A finite value is held as the rational it denotes, with
the negative zero apart; `inf` and `nan` carry their sign bit. -/
inductive Double where
  | finite (q : ℚ)
  | negzero
  | inf (neg : Bool)
  | nan (neg : Bool)
  deriving DecidableEq

/-- Floor of the logarithm of `n` in base `b`, by repeated division; `fuel` bounds the number
of divisions and `n` itself is always enough. -/
def ilog (b : Nat) : Nat → Nat → Nat
  | 0, _ => 0
  | fuel + 1, n => if n < b then 0 else ilog b fuel (n / b) + 1

/-- Floor of the logarithm in base `b` of the fraction `n / d`, for positive `n` and `d`. -/
def floor_log (b n d : Nat) : Int :=
  if d ≤ n then (ilog b (n / d) (n / d) : Int)
  else -((ilog b ((d - 1) / n) ((d - 1) / n) : Int) + 1)

/-- The fraction `n / d` rounded to the nearest integer, a tie going to the even one. -/
def round_half_even (n d : Nat) : Nat :=
  if 2 * (n % d) < d then n / d
  else if d < 2 * (n % d) then n / d + 1
  else if (n / d) % 2 = 0 then n / d else n / d + 1

/-- The fraction `n / d` divided by `b ^ e` and rounded to the nearest integer. -/
def scaled_round (b n d : Nat) (e : Int) : Nat :=
  if 0 ≤ e then round_half_even n (d * b ^ e.toNat)
  else round_half_even (n * b ^ (-e).toNat) d

/-- The rational `m * b ^ e`. -/
def scale (m b : Nat) (e : Int) : ℚ :=
  if 0 ≤ e then ((m * b ^ e.toNat : Nat) : ℚ) else (m : ℚ) / ((b ^ (-e).toNat : Nat) : ℚ)

/-- Rounding of a rational to binary64, to nearest with ties to even: 53 significant bits,
least exponent -1074, overflow to infinity. -/
def round64 (q : ℚ) : Double :=
  if q = 0 then .finite 0
  else
    let e : Int := max (floor_log 2 q.num.natAbs q.den - 52) (-1074)
    let m : Nat := scaled_round 2 q.num.natAbs q.den e
    if m = 0 then (if q < 0 then .negzero else .finite 0)
    else if 971 < e ∨ (e = 971 ∧ 2 ^ 53 ≤ m) then .inf (decide (q < 0))
    else .finite (if q < 0 then -scale m 2 e else scale m 2 e)

namespace Double

/-- The sign bit. -/
def signbit : Double → Bool
  | finite q => decide (q < 0)
  | negzero => true
  | inf s => s
  | nan s => s

/-- The value of a finite double (zero for the others). -/
def toRat : Double → ℚ
  | finite q => q
  | _ => 0

/-- A zero with the given sign bit. -/
def signed_zero (neg : Bool) : Double :=
  if neg then negzero else finite 0

/-- Unary minus. -/
def neg : Double → Double
  | finite q => if q = 0 then negzero else finite (-q)
  | negzero => finite 0
  | inf s => inf (!s)
  | nan s => nan (!s)

/-- `a == b`. -/
def eq : Double → Double → Bool
  | nan _, _ => false
  | _, nan _ => false
  | inf s, inf t => s == t
  | inf _, _ => false
  | _, inf _ => false
  | a, b => decide (a.toRat = b.toRat)

/-- `a != b`. -/
def ne (a b : Double) : Bool :=
  !(eq a b)

/-- `a < b`. -/
def lt : Double → Double → Bool
  | nan _, _ => false
  | _, nan _ => false
  | inf s, inf t => s && !t
  | inf s, _ => s
  | _, inf t => !t
  | a, b => decide (a.toRat < b.toRat)

/-- `a > b`. -/
def gt (a b : Double) : Bool :=
  lt b a

/-- `a + b`. An invalid operation gives the default NaN of x86-64, which has the sign bit
set. -/
def add : Double → Double → Double
  | nan s, _ => nan s
  | _, nan s => nan s
  | inf s, inf t => if s = t then inf s else nan true
  | inf s, _ => inf s
  | _, inf t => inf t
  | a, b =>
    if a.toRat + b.toRat = 0 then signed_zero (a.signbit && b.signbit)
    else round64 (a.toRat + b.toRat)

/-- `a - b`. -/
def sub : Double → Double → Double
  | nan s, _ => nan s
  | _, nan s => nan s
  | a, b => add a (neg b)

/-- `a * b`. -/
def mul : Double → Double → Double
  | nan s, _ => nan s
  | _, nan s => nan s
  | inf s, inf t => inf (xor s t)
  | inf s, b => if b.toRat = 0 then nan true else inf (xor s b.signbit)
  | a, inf t => if a.toRat = 0 then nan true else inf (xor a.signbit t)
  | a, b =>
    if a.toRat * b.toRat = 0 then signed_zero (xor a.signbit b.signbit)
    else round64 (a.toRat * b.toRat)

/-- `a / b`. -/
def div : Double → Double → Double
  | nan s, _ => nan s
  | _, nan s => nan s
  | inf _, inf _ => nan true
  | inf s, b => inf (xor s b.signbit)
  | a, inf t => signed_zero (xor a.signbit t)
  | a, b =>
    if b.toRat = 0 then
      (if a.toRat = 0 then nan true else inf (xor a.signbit b.signbit))
    else if a.toRat = 0 then signed_zero (xor a.signbit b.signbit)
    else round64 (a.toRat / b.toRat)

/-- Conversion of an `int` or `unsigned int` to `double`; it is exact, the integer having at
most 32 bits. -/
def ofInt (z : Int) : Double :=
  finite z

/-- `modf(x, &intpart)` of `<math.h>`: the fractional part and the integral part, both with
the sign of `x`. -/
def modf : Double → Double × Double
  | nan s => (nan s, nan s)
  | inf s => (signed_zero s, inf s)
  | negzero => (negzero, negzero)
  | finite q =>
    let t : Int := q.num.tdiv q.den
    ((if q - t = 0 then signed_zero (decide (q < 0)) else finite (q - t)),
     (if t = 0 then signed_zero (decide (q < 0)) else finite t))

/-- Conversion `(unsigned int) x`. It is defined by C when the truncated value is in
`[0, 2^32)`; outside that range the value taken is the one x86-64 produces: the low 32 bits
of the 64-bit truncation, and 0 when even that is out of range. -/
def toUInt32 : Double → Nat
  | finite q =>
    let t : Int := q.num.tdiv q.den
    if -(2 ^ 63) ≤ t ∧ t < 2 ^ 63 then (t % 2 ^ 32).toNat else 0
  | _ => 0

end Double

/-- Removal of trailing zeros. -/
def strip_zeros (l : List Char) : List Char :=
  (l.reverse.dropWhile (fun c => c = '0')).reverse

/-- A fractional part for output: nothing when no digit is left, else the point and the
digits. -/
def frac_part (l : List Char) : List Char :=
  if strip_zeros l = [] then [] else '.' :: strip_zeros l

/-- The exponent field of the `e` style: a sign and at least two digits. -/
def fmt_exp (x : Int) : List Char :=
  'e' :: (if x < 0 then '-' else '+') ::
    (if x.natAbs < 10 then '0' :: Nat.toDigits 10 x.natAbs else Nat.toDigits 10 x.natAbs)

/-- The `%g` conversion (precision 6) of the positive fraction `n / d`: six significant
digits, style `f` when the decimal exponent is in `[-4, 6)` and style `e` otherwise, trailing
zeros removed. -/
def fmt_g_pos (n d : Nat) : List Char :=
  let x0 : Int := floor_log 10 n d
  let s0 : Nat := scaled_round 10 n d (x0 - 5)
  let x : Int := if s0 = 10 ^ 6 then x0 + 1 else x0
  let digits : List Char := Nat.toDigits 10 (if s0 = 10 ^ 6 then 10 ^ 5 else s0)
  if -4 ≤ x ∧ x < 6 then
    if 0 ≤ x then digits.take (x.toNat + 1) ++ frac_part (digits.drop (x.toNat + 1))
    else '0' :: frac_part (List.replicate ((-x).toNat - 1) '0' ++ digits)
  else digits.take 1 ++ frac_part (digits.drop 1) ++ fmt_exp x

/-- The `%g` conversion of a `double`, as glibc prints it. -/
def fmt_g : Double → List Char
  | .nan s => if s then "-nan".toList else "nan".toList
  | .inf s => if s then "-inf".toList else "inf".toList
  | .negzero => "-0".toList
  | .finite q =>
    if q = 0 then "0".toList
    else if q < 0 then '-' :: fmt_g_pos q.num.natAbs q.den
    else fmt_g_pos q.num.natAbs q.den

/-! ## Number parsing -/

/-- `isspace` of `<ctype.h>` in the C locale. -/
def isspace (c : Char) : Bool :=
  c = ' ' || c = '\t' || c = '\n' || c = '\x0b' || c = '\x0c' || c = '\r'

/-- The value of a digit character (decimal or hexadecimal). -/
def digit_val (c : Char) : Nat :=
  if c.isDigit then c.toNat - 48
  else if 'a' ≤ c ∧ c ≤ 'f' then c.toNat - 87
  else c.toNat - 55

/-- The number written by a list of digits in base `b`. -/
def digits_value (b : Nat) (ds : List Char) : Nat :=
  ds.foldl (fun acc c => b * acc + digit_val c) 0

/-- A hexadecimal digit. -/
def isxdigit (c : Char) : Bool :=
  c.isDigit || ('a' ≤ c && c ≤ 'f') || ('A' ≤ c && c ≤ 'F')

/-- An exponent part `[+-]ddd` after the exponent letter: its value and the text after it,
or nothing when no digit follows. -/
def exponent_part (s : List Char) : Option (Int × List Char) :=
  let neg := s.head? = some '-'
  let u := if s.head? = some '-' ∨ s.head? = some '+' then s.drop 1 else s
  if u.takeWhile isdigit = [] then none
  else
    some ((if neg then -(digits_value 10 (u.takeWhile isdigit) : Int)
           else (digits_value 10 (u.takeWhile isdigit) : Int)),
          u.dropWhile isdigit)

/-- The text after `nan`: an optional `(n-char-sequence)` is part of the number. -/
def nan_tail (s : List Char) : List Char :=
  match s with
  | '(' :: r =>
    match r.dropWhile (fun c => c.isAlphanum || c = '_') with
    | ')' :: r2 => r2
    | _ => s
  | _ => s

/-- The hexadecimal form `0x h.h p±d` of `strtod`, after the sign. -/
def strtod_hex (u : List Char) : Option (Double × List Char) :=
  match u with
  | '0' :: x :: r =>
    if x = 'x' ∨ x = 'X' then
      let hi := r.takeWhile isxdigit
      let r1 := r.dropWhile isxdigit
      let hf := if r1.head? = some '.' then (r1.drop 1).takeWhile isxdigit else []
      let r2 := if r1.head? = some '.' then (r1.drop 1).dropWhile isxdigit else r1
      if hi = [] ∧ hf = [] then none
      else
        let ex : Int × List Char :=
          if r2.head? = some 'p' ∨ r2.head? = some 'P' then
            (match exponent_part (r2.drop 1) with
             | some (e, r3) => (e, r3)
             | none => (0, r2))
          else (0, r2)
        some ((if digits_value 16 (hi ++ hf) = 0 then Double.finite 0
               else round64 (scale (digits_value 16 (hi ++ hf)) 2 (ex.1 - 4 * hf.length))),
              ex.2)
    else none
  | _ => none

/-- The decimal form `d.d e±d` of `strtod`, after the sign. -/
def strtod_dec (u : List Char) : Option (Double × List Char) :=
  let di := u.takeWhile isdigit
  let r1 := u.dropWhile isdigit
  let df := if r1.head? = some '.' then (r1.drop 1).takeWhile isdigit else []
  let r2 := if r1.head? = some '.' then (r1.drop 1).dropWhile isdigit else r1
  if di = [] ∧ df = [] then none
  else
    let ex : Int × List Char :=
      if r2.head? = some 'e' ∨ r2.head? = some 'E' then
        (match exponent_part (r2.drop 1) with
         | some (e, r3) => (e, r3)
         | none => (0, r2))
      else (0, r2)
    some ((if digits_value 10 (di ++ df) = 0 then Double.finite 0
           else round64 (scale (digits_value 10 (di ++ df)) 10 (ex.1 - df.length))),
          ex.2)

/-- The subject sequence of `strtod` after white space and sign: infinity, NaN, a
hexadecimal or a decimal number. -/
def strtod_body (u : List Char) : Option (Double × List Char) :=
  if (u.take 8).map Char.toLower = "infinity".toList then some (Double.inf false, u.drop 8)
  else if (u.take 3).map Char.toLower = "inf".toList then some (Double.inf false, u.drop 3)
  else if (u.take 3).map Char.toLower = "nan".toList then
    some (Double.nan false, nan_tail (u.drop 3))
  else
    match strtod_hex u with
    | some r => some r
    | none => strtod_dec u

/-- `strtod(s, &end)` of glibc, correctly rounded: the value and the text at `end`. When
nothing can be converted the value is zero and `end` is `s`. -/
def strtod (s : List Char) : Double × List Char :=
  let t := s.dropWhile isspace
  let u := if t.head? = some '-' ∨ t.head? = some '+' then t.drop 1 else t
  match strtod_body u with
  | some (v, rest) => (if t.head? = some '-' then Double.neg v else v, rest)
  | none => (Double.finite 0, s)

/-! ## The operations -/

/-- `tempbufsize`. -/
def tempbufsize : Nat := 30

/-- `maxlines`. -/
def maxlines : Nat := 120

/-- `maxbufsize`, the size of `results_buf`. -/
def maxbufsize : Nat := tempbufsize * maxlines

/-- `maxfactor`. -/
def maxfactor : Nat := 1000000000

/-- `overflow_error`. -/
def overflow_error : List Char := "Error: Overflow\n".toList

/-- `divzero_error`. -/
def divzero_error : List Char := "Error: Divide by zero\n".toList

/-- `factor_nonint_error`. -/
def factor_nonint_error : List Char := "Error: can only factor on integers\n".toList

/-- `factor_toolarge_error` with its `%i` filled in by `v`. -/
def factor_toolarge_error (v : List Char) : List Char :=
  "Error: can only factor up to ".toList ++ v ++ "\n".toList

/-- `fib_error`. -/
def fib_error : List Char := "Error: can only count fibonacci for positive integers\n".toList

/-- The `%u` conversion. -/
def fmt_u (val : Nat) : List Char :=
  Nat.toDigits 10 val

/-- The `%i` conversion. -/
def fmt_i (val : Int) : List Char :=
  if val < 0 then '-' :: Nat.toDigits 10 val.natAbs else Nat.toDigits 10 val.natAbs

/-- `snprintf(buf, size, ...)` for the formatted text `text`: what `buf` holds afterwards. -/
def snprintf (size : Nat) (text : List Char) : List Char :=
  text.take (size - 1)

/-- `void printint(unsigned int val)`: the new content of `results_buf`. `res` is what
`snprintf(temp, tempbufsize, "%u\n", val)` returns, the length of the whole formatted text. -/
def printint (val : Nat) (results_buf : List Char) : List Char :=
  if 0 < (fmt_u val ++ ['\n']).length ∧ (fmt_u val ++ ['\n']).length < tempbufsize then
    results_buf ++ snprintf tempbufsize (fmt_u val ++ ['\n'])
  else overflow_error

/-- The `while (div < i)` loop of `bi_factor` followed by the final `printint(i)`, for
variables `i` and `div` that hold integers (`i` at most 2^32): on such values the `double`
operations of the loop are exact, `i / div` has a zero `fractpart` exactly when `div` divides
`i`, and `i /= div`, `div++` give integers again. The first component is the new content of
`results_buf`; the second counts the executions of the loop body, `iters` being the count
so far. The loop on the `double`s themselves is `factor_loop_double` below, and
`factor_loop_double_eq` and `bi_factor_double_eq` prove that it gives the same. -/
def factor_loop (i div : Nat) (results_buf : List Char) (iters : Nat) : List Char × Nat :=
  if div < i then
    if i % div ≠ 0 then factor_loop i (div + 1) results_buf (iters + 1)
    else factor_loop (i / div) 2 (printint div results_buf) (iters + 1)
  else (printint i results_buf, iters)
termination_by (i, i - div)
decreasing_by
  · exact Prod.Lex.right _ (by omega)
  · rename_i h1 h2
    by_cases hd : div = 1
    · subst hd
      rw [Nat.div_one]
      exact Prod.Lex.right _ (by omega)
    · have hd0 : div ≠ 0 := by
        intro h0
        subst h0
        simp at h2
        omega
      exact Prod.Lex.left _ _ (Nat.div_lt_self (by omega) (by omega))

/-- `void bi_factor(double a, double b)` with the count of loop iterations: the content it
leaves in `results_buf`, and how often the body of its loop ran. The loop is entered with
`i = intpart`, an integer above 2 and at most `maxfactor`, when the first test `div < i`
succeeds; otherwise only the final `printint(i)` runs. -/
def bi_factor_run (a _b : Double) : List Char × Nat :=
  if Double.ne (Double.modf a).1 (Double.ofInt 0) then (factor_nonint_error, 0)
  else if Double.gt (Double.modf a).2 (Double.ofInt maxfactor) then
    (snprintf maxbufsize (factor_toolarge_error (fmt_i maxfactor)), 0)
  else if Double.lt (Double.ofInt 2) (Double.modf a).2 then
    factor_loop (Double.toUInt32 (Double.modf a).2) 2 [] 0
  else (printint (Double.toUInt32 (Double.modf a).2) [], 0)

/-- `void bi_factor(double a, double b)`: the content it leaves in `results_buf`. -/
def bi_factor (a b : Double) : List Char :=
  (bi_factor_run a b).1

/-- The loop `while (div < i)` of `bi_factor` on its `double` variables as the source has it,
followed by the final `printint(i)`. `fractpart` is the fractional part of `i / div` that the
last `modf(temp, &intpart)` stored. The result is the new content of `results_buf` with the
count of executions of the loop body, and `none` when `fuel` executions do not end the loop. -/
def factor_loop_double :
    Nat → Double → Double → Double → List Char → Nat → Option (List Char × Nat)
  | 0, _, _, _, _, _ => none
  | fuel + 1, i, div, fractpart, results_buf, iters =>
    if Double.lt div i then
      if Double.ne fractpart (Double.ofInt 0) then
        factor_loop_double fuel i (Double.add div (Double.ofInt 1))
          (Double.modf (Double.div i (Double.add div (Double.ofInt 1)))).1 results_buf
          (iters + 1)
      else
        factor_loop_double fuel (Double.div i div) (Double.ofInt 2)
          (Double.modf (Double.div (Double.div i div) (Double.ofInt 2))).1
          (printint (Double.toUInt32 div) results_buf) (iters + 1)
    else some (printint (Double.toUInt32 i) results_buf, iters)

/-- `void bi_factor(double a, double b)` with its loop on `double`s: what `bi_factor_run`
gives, computed as the source writes it. -/
def bi_factor_double (fuel : Nat) (a _b : Double) : Option (List Char × Nat) :=
  if Double.ne (Double.modf a).1 (Double.ofInt 0) then some (factor_nonint_error, 0)
  else if Double.gt (Double.modf a).2 (Double.ofInt maxfactor) then
    some (snprintf maxbufsize (factor_toolarge_error (fmt_i maxfactor)), 0)
  else
    factor_loop_double fuel (Double.modf a).2 (Double.ofInt 2)
      (Double.modf (Double.div (Double.modf a).2 (Double.ofInt 2))).1 [] 0

/-- The `for (i = 1; i < intpart; i++)` loop of `bi_fib`. `fuel` is the number of values the
`int` counter can still take; `prev1`, `prev2` and `result` are `unsigned int`, their sum
wraps modulo 2^32. The first component is the new content of `results_buf`; the second
counts the executions of the loop body, `iters` being the count so far. -/
def fib_loop : Nat → Double → Int → Nat → Nat → List Char → Nat → List Char × Nat
  | 0, _, _, _, _, results_buf, iters => (results_buf, iters)
  | fuel + 1, intpart, i, prev1, prev2, results_buf, iters =>
    if Double.lt (Double.ofInt i) intpart then
      if (prev1 + prev2) % 2 ^ 32 < prev1 then (results_buf ++ overflow_error, iters + 1)
      else
        fib_loop fuel intpart (i + 1) ((prev1 + prev2) % 2 ^ 32) prev1
          (printint ((prev1 + prev2) % 2 ^ 32) results_buf) (iters + 1)
    else (results_buf, iters)

/-- `void bi_fib(double a, double b)` with the count of loop iterations. The counter `i`
starts at 1 and is an `int`, so it can take `2^31 - 1` values. -/
def bi_fib_run (a _b : Double) : List Char × Nat :=
  if Double.ne (Double.modf a).1 (Double.ofInt 0) || Double.lt (Double.modf a).2 (Double.ofInt 0)
  then (fib_error, 0)
  else fib_loop (2 ^ 31 - 1) (Double.modf a).2 1 1 0 "1\n".toList 0

/-- `void bi_fib(double a, double b)`: the content it leaves in `results_buf`. -/
def bi_fib (a b : Double) : List Char :=
  (bi_fib_run a b).1

/-- `void bi_add(double a, double b)`. -/
def bi_add (a b : Double) : List Char :=
  snprintf maxbufsize (fmt_g (Double.add a b) ++ ['\n'])

/-- `void bi_sub(double a, double b)`. -/
def bi_sub (a b : Double) : List Char :=
  snprintf maxbufsize (fmt_g (Double.sub a b) ++ ['\n'])

/-- `void bi_mul(double a, double b)`. -/
def bi_mul (a b : Double) : List Char :=
  snprintf maxbufsize (fmt_g (Double.mul a b) ++ ['\n'])

/-- `void bi_div(double a, double b)`. -/
def bi_div (a b : Double) : List Char :=
  if Double.eq b (Double.ofInt 0) then divzero_error
  else snprintf maxbufsize (fmt_g (Double.div a b) ++ ['\n'])

/-- `void bi_exp(double a, double b)`. The function `pow` of `<math.h>` is a parameter: its
results are specified only up to a rounding error. -/
def bi_exp (pow : Double → Double → Double) (a b : Double) : List Char :=
  snprintf maxbufsize (fmt_g (pow a b) ++ ['\n'])

/-- The call `f(a, b)` through a function pointer of the table: the content it leaves in
`results_buf`. -/
def MathFn.call (pow : Double → Double → Double) (f : MathFn) (a b : Double) : List Char :=
  match f with
  | .bi_factor => Mathfs.bi_factor a b
  | .bi_fib => Mathfs.bi_fib a b
  | .bi_add => Mathfs.bi_add a b
  | .bi_sub => Mathfs.bi_sub a b
  | .bi_mul => Mathfs.bi_mul a b
  | .bi_div => Mathfs.bi_div a b
  | .bi_exp => Mathfs.bi_exp pow a b

/-- The text of the lines `v1\n v2\n ...` for a list of numbers, each as a decimal numeral. -/
def number_lines : List Nat → List Char
  | [] => []
  | v :: vs => Nat.toDigits 10 v ++ '\n' :: number_lines vs

/-! ## The file system operations -/

/-- `ENOENT` of `<errno.h>`. -/
def ENOENT : Int := 2

/-- `EACCES` of `<errno.h>`. -/
def EACCES : Int := 13

/-- `O_RDONLY` of `<fcntl.h>`. -/
def O_RDONLY : Nat := 0

/-- `S_IFDIR`. -/
def S_IFDIR : Nat := 0o040000

/-- `S_IFREG`. -/
def S_IFREG : Nat := 0o100000

/-- The global variables `results_buf`, `last_f`, `last_a`, `last_b`. `last_f` is `none` for
the null pointer the program starts with. The field `calls` is not in the program: it counts
the calls `builtins[i].f(a, b)` made so far. -/
structure Globals where
  results_buf : List Char
  last_f : Option MathFn
  last_a : Double
  last_b : Double
  calls : Nat

/-- The globals at program start: all zero. -/
def Globals.init : Globals :=
  ⟨[], none, Double.ofInt 0, Double.ofInt 0, 0⟩

/-- The search loop `for (i = 0; i < max_builtins && strncmp(path, builtins[i].path,
strlen(builtins[i].path)) != 0; i++);`: the value of `i` after it. -/
def find_builtin (path : List Char) : Nat :=
  builtins.findIdx (fun c => strncmp_eq path c.path c.path.length)

/-- The search loop of `mathfs_readdir`, which compares with `strcmp`. -/
def find_exact (path : List Char) : Nat :=
  builtins.findIdx (fun c => decide (path = c.path))

/-- The block that `mathfs_getattr` and `mathfs_read` both run for a path of kind `mf_file`:
the operands are read with `strtod` (`b` stays 0 for one operand), and the function is called
unless the function and both operands equal the last ones. -/
def compute_file (pow : Double → Double → Double) (g : Globals) (path : List Char) (i : Nat) :
    Globals :=
  let a := (strtod (path.drop ((builtin i).path.length + 1))).1
  let num2 := (strtod (path.drop ((builtin i).path.length + 1))).2
  let b := if (builtin i).nops = 2 then (strtod (num2.drop 1)).1 else Double.ofInt 0
  if g.last_f ≠ some (builtin i).f ∨ Double.ne a g.last_a = true ∨ Double.ne b g.last_b = true
  then
    { results_buf := MathFn.call pow (builtin i).f a b
      last_f := some (builtin i).f
      last_a := a
      last_b := b
      calls := g.calls + 1 }
  else g

/-- The operand `a` of the block for a file: `strtod(path + strlen(builtins[i].path) + 1,
&num2)`. -/
def operand_a (path : List Char) (i : Nat) : Double :=
  (strtod (path.drop ((builtin i).path.length + 1))).1

/-- The operand `b` of the block for a file: `strtod(num2 + 1, 0)` when the operation takes
two operands, and the initial value 0 otherwise. -/
def operand_b (path : List Char) (i : Nat) : Double :=
  if (builtin i).nops = 2 then
    (strtod ((strtod (path.drop ((builtin i).path.length + 1))).2.drop 1)).1
  else Double.ofInt 0

/-- What a call of `mathfs_read` hands back: the `int` it returns and the bytes that `memcpy`
stored into `buf`; `none` when `memcpy` was asked for more bytes than the text holds. -/
structure ReadResult where
  ret : Int
  buf : Option (List Char)
  deriving DecidableEq

/-- Conversion of a `size_t` to the `int` that `mathfs_read` returns. -/
def to_int (n : Nat) : Int :=
  if n % 2 ^ 32 < 2 ^ 31 then (n % 2 ^ 32 : Nat) else ((n % 2 ^ 32 : Nat) : Int) - 2 ^ 32

/-- `memcpy(buf, src, n)` from a string `src`: the bytes stored into `buf`. -/
def memcpy (src : List Char) (n : Nat) : Option (List Char) :=
  if n ≤ src.length then some (src.take n) else none

/-- The part of `mathfs_read` after `len = strlen(text)`, the same for both kinds of file.
`size` is a `size_t` and `offset` an `off_t`: for `offset < len` the offset is converted to
the unsigned type, and `offset + size` is computed modulo 2^64. -/
def read_text (text : List Char) (size : Nat) (offset : Int) : ReadResult :=
  if (offset % 2 ^ 64).toNat < text.length then
    if ((offset % 2 ^ 64).toNat + size) % 2 ^ 64 > text.length then
      ⟨to_int (text.length - (offset % 2 ^ 64).toNat),
        memcpy (text.drop (offset % 2 ^ 64).toNat) (text.length - (offset % 2 ^ 64).toNat)⟩
    else ⟨to_int size, memcpy (text.drop (offset % 2 ^ 64).toNat) size⟩
  else ⟨0, some []⟩

/-- `mathfs_read(path, buf, size, offset, fi)`: the globals afterwards and the result. -/
def mathfs_read (pow : Double → Double → Double) (g : Globals) (path : List Char) (size : Nat)
    (offset : Int) : Globals × ReadResult :=
  if find_builtin path < max_builtins then
    match pathType path (find_builtin path) with
    | .mf_doc => (g, read_text (builtin (find_builtin path)).doc size offset)
    | .mf_file =>
      (compute_file pow g path (find_builtin path),
        read_text (compute_file pow g path (find_builtin path)).results_buf size offset)
    | _ => (g, ⟨-ENOENT, some []⟩)
  else (g, ⟨-ENOENT, some []⟩)

/-- The fields of `struct stat` that `mathfs_getattr` sets. -/
structure Stat where
  st_mode : Nat
  st_nlink : Nat
  st_size : Nat
  deriving DecidableEq

/-- `mathfs_getattr(path, stbuf)`: the globals afterwards, the value returned and `*stbuf`. -/
def mathfs_getattr (pow : Double → Double → Double) (g : Globals) (path : List Char) :
    Globals × Int × Stat :=
  if path = "/".toList then (g, 0, ⟨S_IFDIR ||| 0o755, 2, 0⟩)
  else if find_builtin path < max_builtins then
    match pathType path (find_builtin path) with
    | .mf_dir => (g, 0, ⟨S_IFDIR ||| 0o755, 2, 0⟩)
    | .mf_doc => (g, 0, ⟨S_IFREG ||| 0o444, 1, (builtin (find_builtin path)).doc.length⟩)
    | .mf_file =>
      (compute_file pow g path (find_builtin path), 0,
        ⟨S_IFREG ||| 0o444, 1, (compute_file pow g path (find_builtin path)).results_buf.length⟩)
    | .mf_invalid => (g, -ENOENT, ⟨0, 0, 0⟩)
  else (g, -ENOENT, ⟨0, 0, 0⟩)

/-- `mathfs_readdir(path, buf, filler, offset, fi)`: the value returned and the names passed
to `filler`, in order. -/
def mathfs_readdir (path : List Char) : Int × List (List Char) :=
  if path = "/".toList then
    (0, [".".toList, "..".toList] ++ builtins.map (fun c => c.path.drop 1))
  else if find_exact path < max_builtins then (0, [docdir.drop 1])
  else (-ENOENT, [])

/-- `mathfs_open(path, fi)` with `flags` for `fi->flags`. -/
def mathfs_open (path : List Char) (flags : Nat) : Int :=
  if find_builtin path < max_builtins then
    match pathType path (find_builtin path) with
    | .mf_file => if flags &&& 3 ≠ O_RDONLY then -EACCES else 0
    | .mf_doc => if flags &&& 3 ≠ O_RDONLY then -EACCES else 0
    | _ => -ENOENT
  else -ENOENT

/-! ## A reader -/

/-- A reader that takes a file in chunks: calls of `mathfs_read` with size `k` at the offsets
`off`, `off + k`, `off + 2 * k`, ... until a call returns no byte; the bytes received, in
order. `fuel` bounds the number of calls. -/
def read_chunks (pow : Double → Double → Double) :
    Nat → Globals → List Char → Nat → Nat → List Char
  | 0, _, _, _, _ => []
  | fuel + 1, g, path, k, off =>
    match (mathfs_read pow g path k (off : Int)).2.buf with
    | some bytes =>
      if (mathfs_read pow g path k (off : Int)).2.ret ≤ 0 then []
      else bytes ++ read_chunks pow fuel (mathfs_read pow g path k (off : Int)).1 path k (off + k)
    | none => []

/-! ## The lines of a text -/

theorem isNum_loop_zero_or_one (cs : List Char) (dp : Nat) :
    isNum_loop cs dp = 1 ∨ isNum_loop cs dp = 0 := by
  induction cs generalizing dp with
  | nil => unfold isNum_loop; split <;> simp
  | cons c cs ih =>
    unfold isNum_loop
    split
    · exact Or.inr rfl
    · exact ih _

theorem isNum_zero_or_one (s : List Char) : isNum s = 1 ∨ isNum s = 0 := by
  cases s with
  | nil => exact Or.inr rfl
  | cons c cs =>
    simp only [isNum]
    split
    · exact Or.inr rfl
    · exact isNum_loop_zero_or_one _ _

theorem isNum_loop_eq_one_iff (cs : List Char) (dp : Nat) :
    isNum_loop cs dp = 1 ↔
      (∀ x ∈ cs, x.isDigit = true ∨ x = '.') ∧ dp + cs.count '.' ≤ 1 := by
  induction cs generalizing dp with
  | nil => simp [isNum_loop]
  | cons c cs ih =>
    unfold isNum_loop
    by_cases hdot : c = '.'
    · subst hdot
      simp only [ne_eq, not_true_eq_false, false_and, if_false, if_true, ih, List.mem_cons,
        forall_eq_or_imp, or_true, true_and, List.count_cons_self]
      constructor <;> rintro ⟨h1, h2⟩ <;> exact ⟨h1, by omega⟩
    · by_cases hdig : c.isDigit = true
      · have hne : ('.' : Char) ≠ c := fun h => hdot h.symm
        simp [isdigit, hdot, hdig, ih, List.count_cons_of_ne hne]
      · simp [isdigit, hdot, hdig]

theorem isNum_cons_eq_one_iff (c : Char) (cs : List Char) :
    isNum (c :: cs) = 1 ↔
      (c = '+' ∨ c = '-' ∨ c = '.' ∨ c.isDigit = true) ∧
        (∀ x ∈ cs, x.isDigit = true ∨ x = '.') ∧ (c :: cs).count '.' ≤ 1 := by
  simp only [isNum]
  by_cases hdot : c = '.'
  · subst hdot
    simp [isNum_loop_eq_one_iff, Nat.add_comm]
  · have hne : ('.' : Char) ≠ c := fun h => hdot h.symm
    by_cases hok : c = '+' ∨ c = '-' ∨ c.isDigit = true
    · have hcond : ¬ (c ≠ '-' ∧ c ≠ '+' ∧ c ≠ '.' ∧ (!isdigit c) = true) := by
        rcases hok with h | h | h <;> simp [h, isdigit]
      have hok' : c = '+' ∨ c = '-' ∨ c = '.' ∨ c.isDigit = true := by
        rcases hok with h | h | h <;> simp [h]
      rw [if_neg hcond]
      rw [if_neg hdot]
      simp only [isNum_loop_eq_one_iff, List.count_cons_of_ne hne, Nat.zero_add]
      exact ⟨fun h => ⟨hok', h⟩, fun h => h.2⟩
    · have h1 : c ≠ '+' := fun h => hok (Or.inl h)
      have h2 : c ≠ '-' := fun h => hok (Or.inr (Or.inl h))
      have h3 : ¬ c.isDigit = true := fun h => hok (Or.inr (Or.inr h))
      simp [h1, h2, h3, hdot, isdigit]

theorem isNum_eq_one_iff (s : List Char) :
    isNum s = 1 ↔
      ∃ c cs, s = c :: cs ∧ (c = '+' ∨ c = '-' ∨ c = '.' ∨ c.isDigit = true) ∧
        (∀ x ∈ cs, x.isDigit = true ∨ x = '.') ∧ s.count '.' ≤ 1 := by
  cases s with
  | nil => simp [isNum]
  | cons c cs =>
    constructor
    · intro h
      exact ⟨c, cs, rfl, (isNum_cons_eq_one_iff c cs).1 h⟩
    · rintro ⟨c', cs', heq, h⟩
      cases heq
      exact (isNum_cons_eq_one_iff c cs).2 h

/-- C4: `isNum s` is 1 exactly when `s` is non-empty, starts with `+`, `-`, `.` or a digit,
continues with digits and `.` only, and holds at most one `.` in total; otherwise it is 0.
It accepts `3`, `-3.5`, `+.5`, `.0` and the lone `-`, and rejects the empty string, `3.5.2`
and `3a`. -/
theorem isNum_characterisation :
    (∀ s : List Char,
      (isNum s = 1 ↔
        ∃ c cs, s = c :: cs ∧ (c = '+' ∨ c = '-' ∨ c = '.' ∨ c.isDigit = true) ∧
          (∀ x ∈ cs, x.isDigit = true ∨ x = '.') ∧ s.count '.' ≤ 1) ∧
      (isNum s ≠ 1 → isNum s = 0)) ∧
    isNum "3".toList = 1 ∧ isNum "-3.5".toList = 1 ∧ isNum "+.5".toList = 1 ∧
    isNum ".0".toList = 1 ∧ isNum "-".toList = 1 ∧
    isNum "".toList = 0 ∧ isNum "3.5.2".toList = 0 ∧ isNum "3a".toList = 0 := by
  refine ⟨fun s => ⟨isNum_eq_one_iff s, fun h => ?_⟩, by decide, by decide, by decide,
    by decide, by decide, by decide, by decide, by decide⟩
  rcases isNum_zero_or_one s with h1 | h0
  · exact absurd h1 h
  · exact h0

/-! ## Path classification: proofs -/

theorem strchr_append_of_not_mem (A B : List Char) (c : Char) (h : c ∉ A) :
    strchr (A ++ c :: B) c = some (c :: B) := by
  induction A with
  | nil => simp [strchr]
  | cons a A ih =>
    have ha : a ≠ c := fun e => h (by simp [e])
    have hA : c ∉ A := fun e => h (by simp [e])
    simp [strchr, ha, ih hA]

theorem strchr_of_not_mem (A : List Char) (c : Char) (h : c ∉ A) : strchr A c = none := by
  induction A with
  | nil => simp [strchr]
  | cons a A ih =>
    have ha : a ≠ c := fun e => h (by simp [e])
    have hA : c ∉ A := fun e => h (by simp [e])
    simp [strchr, ha, ih hA]

theorem isNum_ne_zero_iff (s : List Char) : isNum s ≠ 0 ↔ isNum s = 1 := by
  rcases isNum_zero_or_one s with h | h <;> simp [h]

/-- C5: for an operation `i` of the table and a token `t` without `/` other than `doc`, the
path `<name>/<t>` is classified by `isNum t` alone: with one operand it is a file when
`isNum t` holds and invalid otherwise, with two operands it is a directory when `isNum t`
holds and invalid otherwise. Every operation takes one operand (factor, fib) or two. -/
theorem pathType_single_token (i : Nat) (hi : i < max_builtins) (t : List Char)
    (hslash : '/' ∉ t) (hdoc : t ≠ "doc".toList) :
    ((builtin i).nops = 1 →
      pathType ((builtin i).path ++ '/' :: t) i =
        if isNum t = 1 then .mf_file else .mf_invalid) ∧
    ((builtin i).nops = 2 →
      pathType ((builtin i).path ++ '/' :: t) i =
        if isNum t = 1 then .mf_dir else .mf_invalid) ∧
    ((builtin i).nops = 1 ↔ i = 0 ∨ i = 1) ∧
    ((builtin i).nops = 2 ↔ 2 ≤ i) := by
  have hd : t ≠ ['d', 'o', 'c'] := hdoc
  have hs := strchr_of_not_mem t '/' hslash
  unfold max_builtins at hi
  rcases isNum_zero_or_one t with h | h <;>
    interval_cases i <;>
      simp [pathType, builtin, builtins, docdir, hd, hs, h]

theorem pathType_single_token_witness :
    pathType ("/fib".toList ++ '/' :: "10".toList) 1 = .mf_file ∧
    pathType ("/add".toList ++ '/' :: "3".toList) 2 = .mf_dir ∧
    pathType ("/add".toList ++ '/' :: "3a".toList) 2 = .mf_invalid := by
  have h1 := pathType_single_token 1 (by decide) "10".toList (by decide) (by decide)
  have h2 := pathType_single_token 2 (by decide) "3".toList (by decide) (by decide)
  have h3 := pathType_single_token 2 (by decide) "3a".toList (by decide) (by decide)
  exact ⟨h1.1 (by decide), h2.2.1 (by decide), h3.2.1 (by decide)⟩

/-- C6: for an operation `i` with two operands, a text `A` without `/` and any text `B`, the
path `<name>/<A>/<B>` is a file when `isNum B` holds and invalid otherwise; `A` is not
examined. -/
theorem pathType_two_operands (i : Nat) (hi : i < max_builtins) (h2 : (builtin i).nops = 2)
    (A B : List Char) (hA : '/' ∉ A) :
    pathType ((builtin i).path ++ '/' :: A ++ '/' :: B) i =
      if isNum B = 1 then .mf_file else .mf_invalid := by
  have hs := strchr_append_of_not_mem A B '/' hA
  have hdoc : A ++ '/' :: B ≠ ['d', 'o', 'c'] := by
    intro h
    have hm : '/' ∈ A ++ '/' :: B := by simp
    rw [h] at hm
    exact absurd hm (by decide)
  unfold max_builtins at hi
  rcases isNum_zero_or_one B with h | h <;>
    interval_cases i <;>
      first
      | exact absurd h2 (by decide)
      | simp [pathType, builtin, builtins, docdir, hs, hdoc, h]

theorem pathType_two_operands_witness :
    pathType ("/add".toList ++ '/' :: "x y".toList ++ '/' :: "4".toList) 2 = .mf_file :=
  pathType_two_operands 2 (by decide) (by decide) "x y".toList "4".toList (by decide)

/-- C7: for each of the seven operations (factor, fib, add, sub, mul, div, exp) the path
that is exactly the operation's name is a directory, and `<name>/doc` is the documentation
file. -/
theorem pathType_root_and_doc :
    builtins.map (fun c => c.path) =
      ["/factor".toList, "/fib".toList, "/add".toList, "/sub".toList, "/mul".toList,
        "/div".toList, "/exp".toList] ∧
    ∀ i, i < max_builtins →
      pathType (builtin i).path i = .mf_dir ∧
      pathType ((builtin i).path ++ "/doc".toList) i = .mf_doc := by
  refine ⟨by decide, fun i hi => ?_⟩
  unfold max_builtins at hi
  interval_cases i <;> exact ⟨by decide, by decide⟩

theorem pathType_root_and_doc_witness :
    pathType "/add".toList 2 = .mf_dir ∧ pathType "/add/doc".toList 2 = .mf_doc :=
  pathType_root_and_doc.2 2 (by decide)

/-! ## Decimal numerals -/

theorem toDigitsCore_acc (f n : Nat) (ds : List Char) :
    Nat.toDigitsCore 10 f n ds = Nat.toDigitsCore 10 f n [] ++ ds := by
  induction f generalizing n ds with
  | zero => simp [Nat.toDigitsCore]
  | succ f ih =>
    simp only [Nat.toDigitsCore]
    split
    · simp
    · rw [ih (n / 10) (_ :: ds), ih (n / 10) [_]]
      simp

theorem toDigitsCore_fuel (n : Nat) : ∀ f1 f2, n < f1 → n < f2 →
    Nat.toDigitsCore 10 f1 n [] = Nat.toDigitsCore 10 f2 n [] := by
  induction n using Nat.strong_induction_on with
  | _ n ih =>
    intro f1 f2 h1 h2
    obtain ⟨g1, rfl⟩ : ∃ g, f1 = g + 1 := ⟨f1 - 1, by omega⟩
    obtain ⟨g2, rfl⟩ : ∃ g, f2 = g + 1 := ⟨f2 - 1, by omega⟩
    simp only [Nat.toDigitsCore]
    by_cases h0 : n / 10 = 0
    · simp [h0]
    · simp only [h0, if_false]
      rw [toDigitsCore_acc g1, toDigitsCore_acc g2]
      have hlt : n / 10 < n := Nat.div_lt_self (by omega) (by omega)
      rw [ih (n / 10) hlt g1 g2 (by omega) (by omega)]

/-- The decimal numeral of `n`, digit by digit. -/
theorem toDigits_rec (n : Nat) :
    Nat.toDigits 10 n =
      if n < 10 then [Nat.digitChar n]
      else Nat.toDigits 10 (n / 10) ++ [Nat.digitChar (n % 10)] := by
  have hcore : Nat.toDigitsCore 10 (n + 1) n [] =
      if n / 10 = 0 then [Nat.digitChar (n % 10)]
      else Nat.toDigitsCore 10 n (n / 10) [Nat.digitChar (n % 10)] := by
    simp only [Nat.toDigitsCore]
  unfold Nat.toDigits
  rw [hcore]
  by_cases h : n < 10
  · have h0 : n / 10 = 0 := Nat.div_eq_of_lt h
    have hm : n % 10 = n := Nat.mod_eq_of_lt h
    simp [h, h0, hm]
  · have h0 : n / 10 ≠ 0 := by omega
    rw [if_neg h0, if_neg h, toDigitsCore_acc]
    rw [toDigitsCore_fuel (n / 10) n (n / 10 + 1) (by omega) (by omega)]

theorem digitChar_isDigit (d : Nat) (h : d < 10) : (Nat.digitChar d).isDigit = true := by
  interval_cases d <;> decide

theorem digit_val_digitChar (d : Nat) (h : d < 10) : digit_val (Nat.digitChar d) = d := by
  interval_cases d <;> decide

theorem toDigits_isDigit (n : Nat) : ∀ c ∈ Nat.toDigits 10 n, c.isDigit = true := by
  induction n using Nat.strong_induction_on with
  | _ n ih =>
    rw [toDigits_rec]
    split
    · intro c hc
      simp only [List.mem_singleton] at hc
      subst hc
      exact digitChar_isDigit n (by assumption)
    · intro c hc
      rw [List.mem_append] at hc
      rcases hc with hc | hc
      · exact ih (n / 10) (by omega) c hc
      · simp only [List.mem_singleton] at hc
        subst hc
        exact digitChar_isDigit _ (Nat.mod_lt _ (by decide))

theorem toDigits_ne_nil (n : Nat) : Nat.toDigits 10 n ≠ [] := by
  rw [toDigits_rec]
  split <;> simp

theorem toDigits_length_le (n e : Nat) (he : 0 < e) (h : n < 10 ^ e) :
    (Nat.toDigits 10 n).length ≤ e :=
  Nat.toDigitsCore_length 10 (by decide) (n + 1) n e h he

theorem digits_value_append (b : Nat) (l : List Char) (c : Char) :
    digits_value b (l ++ [c]) = b * digits_value b l + digit_val c := by
  simp [digits_value, List.foldl_append]

/-- Reading back a decimal numeral gives the number. -/
theorem digits_value_toDigits (n : Nat) : digits_value 10 (Nat.toDigits 10 n) = n := by
  induction n using Nat.strong_induction_on with
  | _ n ih =>
    rw [toDigits_rec]
    split
    · rename_i h
      simp [digits_value, digit_val_digitChar n h]
    · rw [digits_value_append, ih (n / 10) (by omega),
        digit_val_digitChar _ (Nat.mod_lt _ (by decide))]
      omega

/-- `printint` appends the numeral and a newline: the test on `res` succeeds for every
`unsigned int`. -/
theorem printint_eq (val : Nat) (buf : List Char) (h : val < 10 ^ 28) :
    printint val buf = buf ++ (Nat.toDigits 10 val ++ ['\n']) := by
  have hl := toDigits_length_le val 28 (by decide) h
  unfold printint fmt_u snprintf tempbufsize
  have h1 : (Nat.toDigits 10 val ++ ['\n']).length = (Nat.toDigits 10 val).length + 1 := by simp
  rw [h1, if_pos ⟨by omega, by omega⟩, List.take_of_length_le (by rw [h1]; omega)]

/-! ## Fibonacci -/

theorem number_lines_append (l1 l2 : List Nat) :
    number_lines (l1 ++ l2) = number_lines l1 ++ number_lines l2 := by
  induction l1 with
  | nil => rfl
  | cons v vs ih => simp [number_lines, ih]

theorem modf_natCast (n : Nat) :
    Double.modf (.finite (n : ℚ)) = (.finite 0, .finite (n : ℚ)) := by
  simp only [Double.modf, Rat.num_natCast, Rat.den_natCast, Nat.cast_one, Int.tdiv_one,
    Int.cast_natCast, sub_self, if_true]
  have hneg : ¬ ((n : ℚ) < 0) := not_lt.mpr (Nat.cast_nonneg n)
  by_cases h0 : n = 0
  · subst h0
    simp [Double.signed_zero]
  · have h1 : ¬ ((n : Int) = 0) := by exact_mod_cast h0
    simp [Double.signed_zero, hneg, h1]

theorem lt_ofInt_finite (j n : Nat) :
    Double.lt (Double.ofInt (j : Int)) (.finite (n : ℚ)) = decide (j < n) := by
  simp [Double.lt, Double.ofInt, Double.toRat]

theorem fib_lt_two_pow (j : Nat) (h : j ≤ 47) : Nat.fib j < 2 ^ 32 := by
  have h1 : Nat.fib j ≤ Nat.fib 47 := Nat.fib_mono h
  have h2 : Nat.fib 47 = 2971215073 := by norm_num
  omega

theorem fib_succ_pred (i : Nat) (h : 1 ≤ i) : Nat.fib i + Nat.fib (i - 1) = Nat.fib (i + 1) := by
  obtain ⟨j, rfl⟩ : ∃ j, i = j + 1 := ⟨i - 1, by omega⟩
  rw [Nat.add_sub_cancel, Nat.fib_add_two, Nat.add_comm]

/-- `k` rounds of the loop of `bi_fib` from counter `i`, while the counter stays below
`intpart` and the terms stay below 2^32: the next `k` Fibonacci numbers are appended. -/
theorem fib_loop_steps (intpart : Double) (k : Nat) :
    ∀ (i fuel : Nat) (buf : List Char) (iters : Nat), 1 ≤ i → i + k ≤ 47 →
      (∀ j, i ≤ j → j < i + k → Double.lt (Double.ofInt (j : Int)) intpart = true) →
      fib_loop (fuel + k) intpart (i : Int) (Nat.fib i) (Nat.fib (i - 1)) buf iters =
        fib_loop fuel intpart ((i + k : Nat) : Int) (Nat.fib (i + k)) (Nat.fib (i + k - 1))
          (buf ++ number_lines ((List.range k).map fun j => Nat.fib (i + 1 + j)))
          (iters + k) := by
  induction k with
  | zero => intro i fuel buf iters _ _ _; simp [number_lines]
  | succ k ih =>
    intro i fuel buf iters hi hk hlt
    have hres : (Nat.fib i + Nat.fib (i - 1)) % 2 ^ 32 = Nat.fib (i + 1) := by
      rw [fib_succ_pred i hi]
      exact Nat.mod_eq_of_lt (fib_lt_two_pow _ (by omega))
    have hmono : Nat.fib i ≤ Nat.fib (i + 1) := Nat.fib_mono (by omega)
    have hstep :
        fib_loop (fuel + (k + 1)) intpart (i : Int) (Nat.fib i) (Nat.fib (i - 1)) buf iters =
          fib_loop (fuel + k) intpart ((i + 1 : Nat) : Int) (Nat.fib (i + 1))
            (Nat.fib (i + 1 - 1)) (buf ++ number_lines [Nat.fib (i + 1)]) (iters + 1) := by
      rw [show fuel + (k + 1) = (fuel + k) + 1 by omega, fib_loop, if_pos (hlt i le_rfl (by omega)),
        hres, if_neg (by omega), printint_eq _ _ (by have := fib_lt_two_pow (i + 1) (by omega); omega)]
      simp [number_lines]
    rw [hstep, ih (i + 1) fuel _ _ (by omega) (by omega)
      (fun j h1 h2 => hlt j (by omega) (by omega))]
    have hl : (List.range (k + 1)).map (fun j => Nat.fib (i + 1 + j)) =
        [Nat.fib (i + 1)] ++ (List.range k).map (fun j => Nat.fib (i + 1 + 1 + j)) := by
      rw [List.range_succ_eq_map]
      simp only [List.map_cons, List.map_map, Nat.add_zero, List.singleton_append,
        List.cons.injEq, true_and]
      apply List.map_congr_left
      intro a _
      show Nat.fib (i + 1 + (a + 1)) = Nat.fib (i + 1 + 1 + a)
      congr 1
      omega
    rw [hl, number_lines_append, List.append_assoc]
    congr 1 <;> first | rfl | (congr 1; omega) | omega

theorem fib_loop_stop (intpart : Double) (fuel : Nat) (i : Int) (p1 p2 : Nat)
    (buf : List Char) (iters : Nat) (h : Double.lt (Double.ofInt i) intpart = false) :
    fib_loop (fuel + 1) intpart i p1 p2 buf iters = (buf, iters) := by
  rw [fib_loop, h]
  simp

theorem fib_loop_overflow (intpart : Double) (fuel : Nat) (buf : List Char) (iters : Nat)
    (h : Double.lt (Double.ofInt ((47 : Nat) : Int)) intpart = true) :
    fib_loop (fuel + 1) intpart ((47 : Nat) : Int) (Nat.fib 47) (Nat.fib (47 - 1)) buf iters =
      (buf ++ overflow_error, iters + 1) := by
  have h47 : Nat.fib 47 = 2971215073 := by norm_num
  have h46 : Nat.fib (47 - 1) = 1836311903 := by norm_num
  rw [fib_loop, if_pos h, h47, h46, if_pos (by norm_num)]

theorem fib_range_shift (k : Nat) :
    "1\n".toList ++ number_lines ((List.range k).map fun j => Nat.fib (1 + 1 + j)) =
      number_lines ((List.range (k + 1)).map fun j => Nat.fib (j + 1)) := by
  rw [List.range_succ_eq_map]
  simp only [List.map_cons, List.map_map, number_lines]
  have h1 : Nat.toDigits 10 (Nat.fib (0 + 1)) = ['1'] := by decide
  rw [h1]
  have h2 : (List.range k).map (fun j => Nat.fib (1 + 1 + j)) =
      (List.range k).map ((fun j => Nat.fib (j + 1)) ∘ Nat.succ) := by
    apply List.map_congr_left
    intro a _
    show Nat.fib (1 + 1 + a) = Nat.fib (a + 1 + 1)
    congr 1
    omega
  rw [h2]
  rfl

/-- What `bi_fib` leaves in `results_buf` for an operand that is a natural number, and the
number of rounds of its loop. -/
theorem bi_fib_run_natCast (n : Nat) (b : Double) :
    bi_fib_run (.finite (n : ℚ)) b =
      if n ≤ 47 then
        (number_lines ((List.range (max n 1)).map fun j => Nat.fib (j + 1)), max n 1 - 1)
      else
        (number_lines ((List.range 47).map fun j => Nat.fib (j + 1)) ++ overflow_error, 47) := by
  have hcond : (Double.ne (Double.modf (.finite (n : ℚ))).1 (Double.ofInt 0) ||
      Double.lt (Double.modf (.finite (n : ℚ))).2 (Double.ofInt 0)) = false := by
    rw [modf_natCast]
    simp [Double.ne, Double.eq, Double.lt, Double.ofInt, Double.toRat]
  unfold bi_fib_run
  rw [hcond, modf_natCast]
  simp only [Bool.false_eq_true, if_false]
  have hstart : fib_loop (2 ^ 31 - 1) (.finite (n : ℚ)) 1 1 0 "1\n".toList 0 =
      fib_loop (2 ^ 31 - 1) (.finite (n : ℚ)) ((1 : Nat) : Int) (Nat.fib 1) (Nat.fib (1 - 1))
        "1\n".toList 0 := by
    simp
  rw [hstart]
  by_cases hn : n ≤ 47
  · rw [if_pos hn]
    have hfuel : 2 ^ 31 - 1 = (2 ^ 31 - 1 - (max n 1 - 1) - 1 + 1) + (max n 1 - 1) := by omega
    rw [hfuel, fib_loop_steps (.finite (n : ℚ)) (max n 1 - 1) 1 _ _ _ le_rfl (by omega)
      (fun j h1 h2 => by rw [lt_ofInt_finite]; exact decide_eq_true (by omega))]
    rw [fib_loop_stop _ _ _ _ _ _ _ (by rw [lt_ofInt_finite]; exact decide_eq_false (by omega))]
    rw [fib_range_shift, Nat.zero_add, show max n 1 - 1 + 1 = max n 1 by omega]
  · rw [if_neg hn]
    have hfuel : 2 ^ 31 - 1 = (2 ^ 31 - 1 - 46 - 1 + 1) + 46 := by omega
    rw [hfuel, fib_loop_steps (.finite (n : ℚ)) 46 1 _ _ _ le_rfl (by omega)
      (fun j h1 h2 => by rw [lt_ofInt_finite]; exact decide_eq_true (by omega))]
    rw [fib_loop_overflow _ _ _ _ (by rw [lt_ofInt_finite]; exact decide_eq_true (by omega))]
    rw [fib_range_shift]

/-- C2: for a non-negative integer operand `n`, `bi_fib` renders the Fibonacci numbers
`F(1) = 1, F(2) = 1, F(3) = 2, ...`, one per line: for `n ≤ 47` exactly the `max n 1` lines
`F(1) .. F(max n 1)`, for `n ≥ 48` the 47 lines `F(1) .. F(47)` followed by the overflow line.
`fib/10` gives the ten lines up to 55. Every term emitted is a true Fibonacci number: `F(47)`
is below 2^32 and `F(48)` is not. -/
theorem bi_fib_correct (n : Nat) (b : Double) :
    (n ≤ 47 →
      bi_fib (.finite (n : ℚ)) b =
        number_lines ((List.range (max n 1)).map fun j => Nat.fib (j + 1))) ∧
    (48 ≤ n →
      bi_fib (.finite (n : ℚ)) b =
        number_lines ((List.range 47).map fun j => Nat.fib (j + 1)) ++
          "Error: Overflow\n".toList) ∧
    bi_fib (.finite ((10 : Nat) : ℚ)) b = "1\n1\n2\n3\n5\n8\n13\n21\n34\n55\n".toList ∧
    Nat.fib 47 < 2 ^ 32 ∧ 2 ^ 32 ≤ Nat.fib 48 := by
  refine ⟨fun h => ?_, fun h => ?_, ?_, by norm_num, by norm_num⟩
  · rw [bi_fib, bi_fib_run_natCast, if_pos h]
  · rw [bi_fib, bi_fib_run_natCast, if_neg (by omega)]
    rfl
  · rw [bi_fib, bi_fib_run_natCast, if_pos (by omega)]
    decide

theorem bi_fib_correct_witness :
    bi_fib (.finite ((3 : Nat) : ℚ)) (.finite 0) =
      number_lines ((List.range (max 3 1)).map fun j => Nat.fib (j + 1)) ∧
    bi_fib (.finite ((50 : Nat) : ℚ)) (.finite 0) =
      number_lines ((List.range 47).map fun j => Nat.fib (j + 1)) ++
        "Error: Overflow\n".toList :=
  ⟨(bi_fib_correct 3 (.finite 0)).1 (by decide), (bi_fib_correct 50 (.finite 0)).2.1 (by decide)⟩

/-! ## Factorisation -/

theorem prime_of_no_small_divisor (i div p : Nat) (hp2 : 2 ≤ p) (hpi : p ∣ i) (hle : p ≤ div)
    (hno : ∀ d, 2 ≤ d → d < div → ¬ d ∣ i) : p.Prime := by
  rw [Nat.prime_def_lt]
  refine ⟨hp2, fun m hm hmp => ?_⟩
  by_contra h1
  have hm0 : m ≠ 0 := by
    rintro rfl
    rw [Nat.zero_dvd] at hmp
    omega
  exact hno m (by omega) (by omega) (dvd_trans hmp hpi)

/-- The loop of `bi_factor` started at `(i, div)` with no divisor of `i` in `[2, div)`:
it appends the prime factors of `i` in ascending order, with multiplicity. -/
theorem factor_loop_spec (i : Nat) : ∀ (div : Nat) (buf : List Char) (iters : Nat),
    2 ≤ div → div ≤ i → i < 10 ^ 28 → (∀ d, 2 ≤ d → d < div → ¬ d ∣ i) →
    ∃ ps : List Nat, (∀ p ∈ ps, p.Prime) ∧ ps.Sorted (· ≤ ·) ∧ ps.prod = i ∧
      (factor_loop i div buf iters).1 = buf ++ number_lines ps := by
  induction i using Nat.strong_induction_on with
  | _ i ihi =>
    suffices inner : ∀ (k div : Nat) (buf : List Char) (iters : Nat), i - div = k →
        2 ≤ div → div ≤ i → i < 10 ^ 28 → (∀ d, 2 ≤ d → d < div → ¬ d ∣ i) →
        ∃ ps : List Nat, (∀ p ∈ ps, p.Prime) ∧ ps.Sorted (· ≤ ·) ∧ ps.prod = i ∧
          (factor_loop i div buf iters).1 = buf ++ number_lines ps from
      fun div buf iters => inner (i - div) div buf iters rfl
    intro k
    induction k using Nat.strong_induction_on with
    | _ k ihk =>
      intro div buf iters hk hdiv hle hbig hno
      rw [factor_loop]
      by_cases hlt : div < i
      · rw [if_pos hlt]
        by_cases hmod : i % div ≠ 0
        · rw [if_pos hmod]
          refine ihk (i - (div + 1)) (by omega) (div + 1) buf (iters + 1) rfl (by omega)
            (by omega) hbig ?_
          intro d hd2 hdlt hdi
          by_cases hd : d = div
          · subst hd
            exact hmod (Nat.mod_eq_zero_of_dvd hdi)
          · exact hno d hd2 (by omega) hdi
        · rw [if_neg hmod]
          have hdvd : div ∣ i := Nat.dvd_of_mod_eq_zero (by omega)
          obtain ⟨m, hm⟩ := hdvd
          have hm2 : 2 ≤ m := by
            by_contra hcon
            have : m = 0 ∨ m = 1 := by omega
            rcases this with h | h <;> subst h <;> omega
          have hquot : i / div = m := by
            rw [hm]
            exact Nat.mul_div_cancel_left m (by omega)
          have hlt2 : i / div < i := Nat.div_lt_self (by omega) (by omega)
          obtain ⟨ps, hprime, hsorted, hprod, hout⟩ :=
            ihi (i / div) hlt2 2 (printint div buf) (iters + 1) le_rfl (by omega) (by omega)
              (fun d h1 h2 => by omega)
          have hdivprime : div.Prime :=
            prime_of_no_small_divisor i div div hdiv ⟨m, hm⟩ le_rfl hno
          refine ⟨div :: ps, ?_, ?_, ?_, ?_⟩
          · intro p hp
            rcases List.mem_cons.1 hp with h | h
            · exact h ▸ hdivprime
            · exact hprime p h
          · refine List.sorted_cons.2 ⟨fun p hp => ?_, hsorted⟩
            by_contra hcon
            have hpd : p ∣ i / div := hprod ▸ List.dvd_prod hp
            have hpi : p ∣ i := dvd_trans hpd (Nat.div_dvd_of_dvd ⟨m, hm⟩)
            exact hno p (hprime p hp).two_le (by omega) hpi
          · rw [List.prod_cons, hprod, hquot, hm]
          · rw [hout, printint_eq div buf (by omega)]
            simp [number_lines]
      · rw [if_neg hlt]
        have hi : div = i := by omega
        subst hi
        refine ⟨[div], ?_, List.sorted_singleton _, by simp, ?_⟩
        · intro p hp
          rw [List.mem_singleton] at hp
          subst hp
          exact prime_of_no_small_divisor p p p hdiv dvd_rfl le_rfl hno
        · show printint div buf = _
          rw [printint_eq div buf hbig]
          simp [number_lines]

theorem toUInt32_natCast (n : Nat) (h : n < 2 ^ 32) : Double.toUInt32 (.finite (n : ℚ)) = n := by
  have h1 : -(2 ^ 63 : Int) ≤ (n : Int) ∧ (n : Int) < 2 ^ 63 := by constructor <;> omega
  have h2 : ((n : Int) % 2 ^ 32).toNat = n := by omega
  simp only [Double.toUInt32, Rat.num_natCast, Rat.den_natCast, Nat.cast_one, Int.tdiv_one]
  rw [if_pos h1, h2]

/-- `bi_factor` on an integer operand `n` with `2 ≤ n ≤ maxfactor` runs its loop from
`(n, 2)`. -/
theorem bi_factor_run_natCast (n : Nat) (b : Double) (h2 : 2 ≤ n) (hmax : n ≤ maxfactor) :
    bi_factor_run (.finite (n : ℚ)) b = factor_loop n 2 [] 0 := by
  unfold maxfactor at hmax
  have hle : ¬ ((1000000000 : ℚ) < (n : ℚ)) := by
    rw [not_lt]
    exact_mod_cast hmax
  unfold bi_factor_run
  rw [modf_natCast, toUInt32_natCast n (by omega)]
  have hne : Double.ne (Double.finite 0) (Double.ofInt 0) = false := by
    simp [Double.ne, Double.eq, Double.ofInt, Double.toRat]
  have hgt : Double.gt (Double.finite (n : ℚ)) (Double.ofInt maxfactor) = false := by
    simp [Double.gt, Double.lt, Double.ofInt, Double.toRat, maxfactor, hle]
  simp only [hne, hgt, Bool.false_eq_true, if_false]
  by_cases h3 : 2 < n
  · have hlt : Double.lt (Double.ofInt 2) (Double.finite (n : ℚ)) = true := by
      have : (2 : ℚ) < (n : ℚ) := by exact_mod_cast h3
      simp [Double.lt, Double.ofInt, Double.toRat, this]
    rw [if_pos hlt]
  · have hn : n = 2 := by omega
    subst hn
    have hlt : Double.lt (Double.ofInt 2) (Double.finite ((2 : Nat) : ℚ)) = false := by
      simp [Double.lt, Double.ofInt, Double.toRat]
    rw [hlt, factor_loop]
    simp

/-- C1: for an integer operand `n` with `2 ≤ n ≤ 1000000000`, `bi_factor` leaves exactly the
lines `p1\n ... pk\n` of a list of primes in ascending order whose product is `n`; for 12 these
are `2\n2\n3\n`. -/
theorem bi_factor_correct (n : Nat) (b : Double) (h2 : 2 ≤ n) (hmax : n ≤ 1000000000) :
    (∃ ps : List Nat, (∀ p ∈ ps, p.Prime) ∧ ps.Sorted (· ≤ ·) ∧ ps.prod = n ∧
      bi_factor (.finite (n : ℚ)) b = number_lines ps) ∧
    bi_factor (.finite ((12 : Nat) : ℚ)) b = "2\n2\n3\n".toList := by
  constructor
  · obtain ⟨ps, h1, h2', h3, h4⟩ :=
      factor_loop_spec n 2 [] 0 le_rfl h2 (by omega) (fun d h1 h2 => by omega)
    refine ⟨ps, h1, h2', h3, ?_⟩
    rw [bi_factor, bi_factor_run_natCast n b h2 hmax, h4]
    rfl
  · rw [bi_factor, bi_factor_run_natCast 12 b (by decide) (by decide)]
    simp [factor_loop, printint, fmt_u, snprintf, tempbufsize]
    decide

theorem bi_factor_correct_witness :
    (∃ ps : List Nat, (∀ p ∈ ps, p.Prime) ∧ ps.Sorted (· ≤ ·) ∧ ps.prod = 360 ∧
      bi_factor (.finite ((360 : Nat) : ℚ)) (.finite 0) = number_lines ps) ∧
    bi_factor (.finite ((12 : Nat) : ℚ)) (.finite 0) = "2\n2\n3\n".toList :=
  bi_factor_correct 360 (.finite 0) (by decide) (by decide)

/-! ## Bounds on the number of loop rounds -/

theorem factor_loop_iters (i : Nat) : ∀ (div : Nat) (buf : List Char) (iters : Nat),
    2 ≤ div → div ≤ i → (factor_loop i div buf iters).2 ≤ iters + (i - div) := by
  induction i using Nat.strong_induction_on with
  | _ i ihi =>
    suffices inner : ∀ (k div : Nat) (buf : List Char) (iters : Nat), i - div = k →
        2 ≤ div → div ≤ i → (factor_loop i div buf iters).2 ≤ iters + (i - div) from
      fun div buf iters => inner (i - div) div buf iters rfl
    intro k
    induction k using Nat.strong_induction_on with
    | _ k ihk =>
      intro div buf iters hk hdiv hle
      rw [factor_loop]
      by_cases hlt : div < i
      · rw [if_pos hlt]
        by_cases hmod : i % div ≠ 0
        · rw [if_pos hmod]
          have := ihk (i - (div + 1)) (by omega) (div + 1) buf (iters + 1) rfl (by omega)
            (by omega)
          omega
        · rw [if_neg hmod]
          obtain ⟨m, hm⟩ : div ∣ i := Nat.dvd_of_mod_eq_zero (by omega)
          have hm2 : 2 ≤ m := by
            by_contra hcon
            have : m = 0 ∨ m = 1 := by omega
            rcases this with h | h <;> subst h <;> omega
          have hquot : i / div = m := by
            rw [hm]
            exact Nat.mul_div_cancel_left m (by omega)
          have hlt2 : i / div < i := Nat.div_lt_self (by omega) (by omega)
          have h1 := ihi (i / div) hlt2 2 (printint div buf) (iters + 1) le_rfl (by omega)
          rw [hquot] at h1 ⊢
          have h2 : 2 * m ≤ div * m := Nat.mul_le_mul_right m hdiv
          have h3 : div * 2 ≤ div * m := Nat.mul_le_mul_left div hm2
          have h4 : (div - 2) * (m - 2) + 2 * div + 2 * m = div * m + 4 := by
            obtain ⟨d', rfl⟩ : ∃ d', div = d' + 2 := ⟨div - 2, by omega⟩
            obtain ⟨m', rfl⟩ : ∃ m', m = m' + 2 := ⟨m - 2, by omega⟩
            simp only [Nat.add_sub_cancel]
            ring
          have h5 : 0 ≤ (div - 2) * (m - 2) := Nat.zero_le _
          omega
      · rw [if_neg hlt]
        exact Nat.le_add_right _ _

theorem fib_loop_iters (intpart : Double) (k : Nat) :
    ∀ (i fuel : Nat) (buf : List Char) (iters : Nat), 1 ≤ i → i + k = 47 →
      (fib_loop fuel intpart (i : Int) (Nat.fib i) (Nat.fib (i - 1)) buf iters).2 ≤
        iters + k + 1 := by
  induction k with
  | zero =>
    intro i fuel buf iters hi hk
    have h47 : i = 47 := by omega
    subst h47
    cases fuel with
    | zero => simp [fib_loop]
    | succ fuel =>
      by_cases hlt : Double.lt (Double.ofInt ((47 : Nat) : Int)) intpart = true
      · rw [fib_loop_overflow _ _ _ _ hlt]
      · rw [fib_loop_stop _ _ _ _ _ _ _ (by simpa using hlt)]
        omega
  | succ k ih =>
    intro i fuel buf iters hi hk
    cases fuel with
    | zero =>
      simp only [fib_loop]
      omega
    | succ fuel =>
      by_cases hlt : Double.lt (Double.ofInt (i : Int)) intpart = true
      · have h1 := fib_loop_steps intpart 1 i fuel buf iters hi (by omega)
          (fun j h1 h2 => by
            have : j = i := by omega
            subst this
            exact hlt)
        rw [h1]
        have h2 := ih (i + 1) fuel
          (buf ++ number_lines ((List.range 1).map fun j => Nat.fib (i + 1 + j))) (iters + 1)
          (by omega) (by omega)
        omega
      · rw [fib_loop_stop _ _ _ _ _ _ _ (by simpa using hlt)]
        omega

theorem bi_fib_run_iters (a b : Double) : (bi_fib_run a b).2 ≤ 47 := by
  unfold bi_fib_run
  split
  · exact Nat.zero_le _
  · have h := fib_loop_iters (Double.modf a).2 46 1 (2 ^ 31 - 1) "1\n".toList 0 le_rfl rfl
    simpa using h

/-! ## Bounds on the rendered text -/

theorem number_lines_length (ps : List Nat) (h : ∀ p ∈ ps, p < 10 ^ 10) :
    (number_lines ps).length ≤ 11 * ps.length := by
  induction ps with
  | nil => simp [number_lines]
  | cons v vs ih =>
    have h1 := toDigits_length_le v 10 (by decide) (h v (by simp))
    have h2 := ih (fun p hp => h p (by simp [hp]))
    simp only [number_lines, List.length_append, List.length_cons]
    omega

theorem newline_not_mem_toDigits (v : Nat) : '\n' ∉ Nat.toDigits 10 v := by
  intro h
  have := toDigits_isDigit v '\n' h
  exact absurd this (by decide)

theorem number_lines_count (ps : List Nat) : (number_lines ps).count '\n' = ps.length := by
  induction ps with
  | nil => simp [number_lines]
  | cons v vs ih =>
    simp only [number_lines, List.count_append, List.count_cons_self, List.length_cons, ih,
      List.count_eq_zero_of_not_mem (newline_not_mem_toDigits v)]
    omega

theorem number_lines_chars (ps : List Nat) :
    ∀ c ∈ number_lines ps, c.isDigit = true ∨ c = '\n' := by
  induction ps with
  | nil => simp [number_lines]
  | cons v vs ih =>
    intro c hc
    simp only [number_lines, List.mem_append, List.mem_cons] at hc
    rcases hc with hc | hc | hc
    · exact Or.inl (toDigits_isDigit v c hc)
    · exact Or.inr hc
    · exact ih c hc

theorem primes_length_le (ps : List Nat) (e : Nat) (hp : ∀ p ∈ ps, p.Prime)
    (h : ps.prod < 2 ^ e) : ps.length < e := by
  have h1 : 2 ^ ps.length ≤ ps.prod :=
    List.pow_card_le_prod ps 2 (fun p hp' => (hp p hp').two_le)
  exact (Nat.pow_lt_pow_iff_right (by decide)).1 (lt_of_le_of_lt h1 h)

theorem primes_le_prod (ps : List Nat) (hp : ∀ p ∈ ps, p.Prime) (p : Nat) (h : p ∈ ps) :
    p ≤ ps.prod := by
  apply Nat.le_of_dvd
  · apply Nat.pos_of_ne_zero
    apply List.prod_ne_zero
    intro h0
    exact absurd (hp 0 h0) (by decide)
  · exact List.dvd_prod h

theorem toUInt32_lt (d : Double) : Double.toUInt32 d < 2 ^ 32 := by
  cases d with
  | finite q =>
    simp only [Double.toUInt32]
    split
    · omega
    · decide
  | negzero => decide
  | inf s => simp [Double.toUInt32]
  | nan s => simp [Double.toUInt32]

theorem intpart_in_range (a : Double)
    (hlt : Double.lt (Double.ofInt 2) (Double.modf a).2 = true)
    (hgt : Double.gt (Double.modf a).2 (Double.ofInt maxfactor) = false) :
    ∃ n : Nat, 3 ≤ n ∧ n ≤ 1000000000 ∧ (Double.modf a).2 = .finite (n : ℚ) := by
  cases a with
  | nan s =>
    exfalso
    simp [Double.modf, Double.lt, Double.ofInt] at hlt
  | inf s =>
    exfalso
    cases s <;> simp [Double.modf, Double.lt, Double.gt, Double.ofInt] at hlt hgt
  | negzero =>
    exfalso
    have h : Double.lt (Double.ofInt 2) (Double.modf Double.negzero).2 = false := by
      simp [Double.modf, Double.lt, Double.ofInt, Double.toRat]
    rw [h] at hlt
    exact Bool.noConfusion hlt
  | finite q =>
    simp only [Double.modf] at hlt hgt ⊢
    by_cases h0 : q.num.tdiv q.den = 0
    · exfalso
      rw [if_pos h0] at hlt
      have h : ∀ s, Double.lt (Double.ofInt 2) (Double.signed_zero s) = false := by
        intro s
        cases s <;> simp [Double.signed_zero, Double.lt, Double.ofInt, Double.toRat]
      rw [h] at hlt
      exact Bool.noConfusion hlt
    · rw [if_neg h0] at hlt hgt ⊢
      have h1 : (2 : ℚ) < ((q.num.tdiv q.den : Int) : ℚ) := by
        simpa [Double.lt, Double.ofInt, Double.toRat] using hlt
      have h2 : ¬ ((1000000000 : ℚ) < ((q.num.tdiv q.den : Int) : ℚ)) := by
        simpa [Double.gt, Double.lt, Double.ofInt, Double.toRat, maxfactor] using hgt
      have h3 : (2 : Int) < q.num.tdiv q.den := by exact_mod_cast h1
      have h4 : q.num.tdiv q.den ≤ (1000000000 : Int) := by
        rw [not_lt] at h2
        exact_mod_cast h2
      refine ⟨(q.num.tdiv q.den).toNat, by omega, by omega, ?_⟩
      congr 1
      have h5 : (((q.num.tdiv q.den).toNat : Nat) : Int) = q.num.tdiv q.den :=
        Int.toNat_of_nonneg (by omega)
      calc ((q.num.tdiv q.den : Int) : ℚ)
          = ((((q.num.tdiv q.den).toNat : Nat) : Int) : ℚ) := by rw [h5]
        _ = (((q.num.tdiv q.den).toNat : Nat) : ℚ) := Int.cast_natCast _

/-- The four ways `bi_factor` can run: the two error messages, the loop on an integer in
`[3, maxfactor]`, or the single `printint`. -/
theorem bi_factor_run_cases (a b : Double) :
    (Double.ne (Double.modf a).1 (Double.ofInt 0) = true ∧
      bi_factor_run a b = (factor_nonint_error, 0)) ∨
    (Double.ne (Double.modf a).1 (Double.ofInt 0) = false ∧
      Double.gt (Double.modf a).2 (Double.ofInt maxfactor) = true ∧
      bi_factor_run a b = ("Error: can only factor up to 1000000000\n".toList, 0)) ∨
    (Double.ne (Double.modf a).1 (Double.ofInt 0) = false ∧
      Double.gt (Double.modf a).2 (Double.ofInt maxfactor) = false ∧
      ∃ n : Nat, 2 ≤ n ∧ n ≤ 1000000000 ∧ bi_factor_run a b = factor_loop n 2 [] 0) ∨
    (Double.ne (Double.modf a).1 (Double.ofInt 0) = false ∧
      Double.gt (Double.modf a).2 (Double.ofInt maxfactor) = false ∧
      ∃ v : Nat, v < 2 ^ 32 ∧ bi_factor_run a b = (printint v [], 0)) := by
  unfold bi_factor_run
  by_cases h1 : Double.ne (Double.modf a).1 (Double.ofInt 0) = true
  · exact Or.inl ⟨h1, by rw [if_pos h1]⟩
  · have h1' : Double.ne (Double.modf a).1 (Double.ofInt 0) = false := by simpa using h1
    rw [if_neg h1]
    by_cases h2 : Double.gt (Double.modf a).2 (Double.ofInt maxfactor) = true
    · refine Or.inr (Or.inl ⟨h1', h2, ?_⟩)
      rw [if_pos h2]
      have : snprintf maxbufsize (factor_toolarge_error (fmt_i maxfactor)) =
          "Error: can only factor up to 1000000000\n".toList := by decide
      rw [this]
    · have h2' : Double.gt (Double.modf a).2 (Double.ofInt maxfactor) = false := by
        simpa using h2
      rw [if_neg h2]
      by_cases h3 : Double.lt (Double.ofInt 2) (Double.modf a).2 = true
      · obtain ⟨n, hn3, hn, he⟩ := intpart_in_range a h3 h2'
        refine Or.inr (Or.inr (Or.inl ⟨h1', h2', n, by omega, hn, ?_⟩))
        rw [if_pos h3, he, toUInt32_natCast n (by omega)]
      · refine Or.inr (Or.inr (Or.inr ⟨h1', h2', Double.toUInt32 (Double.modf a).2,
          toUInt32_lt _, ?_⟩))
        rw [if_neg h3]

theorem factor_loop_text (n : Nat) (h2 : 2 ≤ n) (hn : n < 2 ^ 32) :
    ∃ ps : List Nat, (factor_loop n 2 [] 0).1 = number_lines ps ∧ ps.length < 32 ∧
      (2 ^ ps.length ≤ n) ∧ ∀ p ∈ ps, p < 10 ^ 10 := by
  obtain ⟨ps, hprime, _, hprod, hout⟩ :=
    factor_loop_spec n 2 [] 0 le_rfl h2 (by omega) (fun d h1 h2 => by omega)
  refine ⟨ps, by simpa using hout, primes_length_le ps 32 hprime (by omega), ?_, ?_⟩
  · rw [← hprod]
    exact List.pow_card_le_prod ps 2 (fun p hp' => (hprime p hp').two_le)
  · intro p hp
    have := primes_le_prod ps hprime p hp
    omega

theorem printint_nil (v : Nat) (h : v < 2 ^ 32) : printint v [] = number_lines [v] := by
  rw [printint_eq v [] (by omega)]
  simp [number_lines]

theorem factor_loop_prefix (i : Nat) : ∀ (div : Nat) (buf : List Char) (iters : Nat),
    2 ≤ div → i < 10 ^ 28 → buf <+: (factor_loop i div buf iters).1 := by
  induction i using Nat.strong_induction_on with
  | _ i ihi =>
    suffices inner : ∀ (k div : Nat) (buf : List Char) (iters : Nat), i - div = k →
        2 ≤ div → i < 10 ^ 28 → buf <+: (factor_loop i div buf iters).1 from
      fun div buf iters => inner (i - div) div buf iters rfl
    intro k
    induction k using Nat.strong_induction_on with
    | _ k ihk =>
      intro div buf iters hk hdiv hi
      rw [factor_loop]
      by_cases hlt : div < i
      · rw [if_pos hlt]
        by_cases hmod : i % div ≠ 0
        · rw [if_pos hmod]
          exact ihk (i - (div + 1)) (by omega) (div + 1) buf (iters + 1) rfl (by omega) hi
        · rw [if_neg hmod]
          have hlt2 : i / div < i := Nat.div_lt_self (by omega) (by omega)
          have h1 := ihi (i / div) hlt2 2 (printint div buf) (iters + 1) le_rfl (by omega)
          rw [printint_eq div buf (by omega)] at h1 ⊢
          exact (List.prefix_append buf _).trans h1
      · rw [if_neg hlt, printint_eq i buf hi]
        exact List.prefix_append buf _

theorem fib_loop_prefix (fuel : Nat) : ∀ (intpart : Double) (i : Int) (p1 p2 : Nat)
    (buf : List Char) (iters : Nat), buf <+: (fib_loop fuel intpart i p1 p2 buf iters).1 := by
  induction fuel with
  | zero =>
    intro intpart i p1 p2 buf iters
    simp [fib_loop]
  | succ fuel ih =>
    intro intpart i p1 p2 buf iters
    rw [fib_loop]
    split
    · split
      · exact List.prefix_append buf _
      · have h1 := ih intpart (i + 1) ((p1 + p2) % 2 ^ 32) p1
          (printint ((p1 + p2) % 2 ^ 32) buf) (iters + 1)
        have h2 : (p1 + p2) % 2 ^ 32 < 10 ^ 28 :=
          lt_trans (Nat.mod_lt _ (by decide)) (by decide)
        rw [printint_eq _ buf h2] at h1 ⊢
        exact (List.prefix_append buf _).trans h1
    · exact List.prefix_refl buf

theorem fib_loop_text (intpart : Double) (k : Nat) :
    ∀ (i fuel : Nat) (buf : List Char) (iters : Nat), 1 ≤ i → i + k = 47 →
      ∃ suf : List Char,
        (fib_loop fuel intpart (i : Int) (Nat.fib i) (Nat.fib (i - 1)) buf iters).1 =
          buf ++ suf ∧
        suf.length ≤ 11 * k + 16 ∧ suf.count '\n' ≤ k + 1 := by
  induction k with
  | zero =>
    intro i fuel buf iters hi hk
    have h47 : i = 47 := by omega
    subst h47
    cases fuel with
    | zero => exact ⟨[], by simp [fib_loop], by simp, by simp⟩
    | succ fuel =>
      by_cases hlt : Double.lt (Double.ofInt ((47 : Nat) : Int)) intpart = true
      · rw [fib_loop_overflow _ _ _ _ hlt]
        exact ⟨overflow_error, rfl, by decide, by decide⟩
      · rw [fib_loop_stop _ _ _ _ _ _ _ (by simpa using hlt)]
        exact ⟨[], by simp, by simp, by simp⟩
  | succ k ih =>
    intro i fuel buf iters hi hk
    cases fuel with
    | zero => exact ⟨[], by simp [fib_loop], by simp, by simp⟩
    | succ fuel =>
      by_cases hlt : Double.lt (Double.ofInt (i : Int)) intpart = true
      · have h1 := fib_loop_steps intpart 1 i fuel buf iters hi (by omega)
          (fun j h1 h2 => by
            have : j = i := by omega
            subst this
            exact hlt)
        have hr : (List.range 1).map (fun j => Nat.fib (i + 1 + j)) = [Nat.fib (i + 1)] := rfl
        rw [h1, hr]
        obtain ⟨suf, h2, h3, h4⟩ := ih (i + 1) fuel (buf ++ number_lines [Nat.fib (i + 1)])
          (iters + 1) (by omega) (by omega)
        refine ⟨number_lines [Nat.fib (i + 1)] ++ suf, ?_, ?_, ?_⟩
        · rw [h2, List.append_assoc]
        · have h5 := number_lines_length [Nat.fib (i + 1)] (fun p hp => by
            rw [List.mem_singleton] at hp
            have := fib_lt_two_pow (i + 1) (by omega)
            omega)
          simp only [List.length_append, List.length_singleton] at h5 ⊢
          omega
        · rw [List.count_append, number_lines_count]
          simp only [List.length_singleton]
          omega
      · rw [fib_loop_stop _ _ _ _ _ _ _ (by simpa using hlt)]
        exact ⟨[], by simp, by simp, by simp⟩

theorem bi_fib_text (a b : Double) :
    (bi_fib a b).length ≤ 524 ∧ (bi_fib a b).count '\n' ≤ 48 := by
  unfold bi_fib bi_fib_run
  split
  · exact ⟨by decide, by decide⟩
  · obtain ⟨suf, h1, h2, h3⟩ :=
      fib_loop_text (Double.modf a).2 46 1 (2 ^ 31 - 1) "1\n".toList 0 le_rfl rfl
    have h1' : (fib_loop (2 ^ 31 - 1) (Double.modf a).2 1 1 0 "1\n".toList 0).1 =
        "1\n".toList ++ suf := by simpa using h1
    rw [h1']
    constructor
    · rw [List.length_append]
      have : "1\n".toList.length = 2 := by decide
      omega
    · rw [List.count_append]
      have : "1\n".toList.count '\n' = 1 := by decide
      omega

theorem bi_factor_bounds (a b : Double) :
    (bi_factor a b).length ≤ 341 ∧ (bi_factor a b).count '\n' ≤ 29 := by
  unfold bi_factor
  rcases bi_factor_run_cases a b with ⟨_, h⟩ | ⟨_, _, h⟩ | ⟨_, _, n, h2, hn, h⟩ | ⟨_, _, v, hv, h⟩
  · rw [h]
    exact ⟨by decide, by decide⟩
  · rw [h]
    exact ⟨by decide, by decide⟩
  · obtain ⟨ps, h1, _, h3, h4⟩ := factor_loop_text n h2 (by omega)
    have h5 : ps.length < 30 := by
      apply (Nat.pow_lt_pow_iff_right (by decide : 1 < 2)).1
      have : (1000000000 : Nat) < 2 ^ 30 := by decide
      omega
    rw [h, h1, number_lines_count]
    have := number_lines_length ps h4
    constructor <;> omega
  · rw [h, printint_nil v hv, number_lines_count]
    have := number_lines_length [v] (fun p hp => by
      rw [List.mem_singleton] at hp
      omega)
    simp only [List.length_singleton] at this ⊢
    constructor <;> omega

/-- C18: the text that `bi_factor` and `bi_fib` hold in `results_buf` fits, with its
terminator, in `maxbufsize = 3600` bytes, at the end and at every point before (the loops and
`printint` only append, so each earlier content is a prefix of the final one); `bi_factor`
leaves at most 29 lines and `bi_fib` at most 48, and a number line is at most 11 bytes. -/
theorem results_buf_fits :
    maxbufsize = 3600 ∧
    (∀ a b : Double, (bi_factor a b).length + 1 ≤ maxbufsize ∧
      (bi_factor a b).count '\n' ≤ 29) ∧
    (∀ a b : Double, (bi_fib a b).length + 1 ≤ maxbufsize ∧ (bi_fib a b).count '\n' ≤ 48) ∧
    (∀ (i div : Nat) (buf : List Char) (iters : Nat), 2 ≤ div → i < 2 ^ 32 →
      buf <+: (factor_loop i div buf iters).1) ∧
    (∀ (fuel : Nat) (intpart : Double) (i : Int) (p1 p2 : Nat) (buf : List Char) (iters : Nat),
      buf <+: (fib_loop fuel intpart i p1 p2 buf iters).1) ∧
    (∀ (v : Nat) (buf : List Char), v < 2 ^ 32 →
      ∃ line : List Char, printint v buf = buf ++ line ∧ line.length ≤ 11) := by
  refine ⟨by decide, fun a b => ?_, fun a b => ?_, fun i div buf iters h2 hi => ?_,
    fun fuel intpart i p1 p2 buf iters => fib_loop_prefix fuel intpart i p1 p2 buf iters,
    fun v buf hv => ?_⟩
  · have h := bi_factor_bounds a b
    have hm : maxbufsize = 3600 := by decide
    exact ⟨by omega, h.2⟩
  · have h := bi_fib_text a b
    have hm : maxbufsize = 3600 := by decide
    exact ⟨by omega, h.2⟩
  · exact factor_loop_prefix i div buf iters h2 (by omega)
  · refine ⟨Nat.toDigits 10 v ++ ['\n'], printint_eq v buf (by omega), ?_⟩
    have := toDigits_length_le v 10 (by decide) (by omega)
    simp only [List.length_append, List.length_singleton]
    omega

theorem results_buf_fits_witness :
    "2\n".toList <+: (factor_loop 9 2 "2\n".toList 1).1 ∧
    (∃ line : List Char, printint 4294967295 [] = [] ++ line ∧ line.length ≤ 11) :=
  ⟨results_buf_fits.2.2.2.1 9 2 "2\n".toList 1 (by decide) (by decide),
   results_buf_fits.2.2.2.2.2 4294967295 [] (by decide)⟩

/-- C11: `bi_factor` leaves the message about integers exactly for the operands with a
non-zero fractional part (3.5 is one), and the message about the maximum, which names
1000000000, exactly for the operands with a zero fractional part whose integral part exceeds
1000000000 (2000000000 is one); no other operand gives either message. -/
theorem bi_factor_errors :
    (∀ a b : Double, bi_factor a b = "Error: can only factor on integers\n".toList ↔
      Double.ne (Double.modf a).1 (Double.ofInt 0) = true) ∧
    (∀ a b : Double, bi_factor a b = "Error: can only factor up to 1000000000\n".toList ↔
      (Double.ne (Double.modf a).1 (Double.ofInt 0) = false ∧
        Double.gt (Double.modf a).2 (Double.ofInt 1000000000) = true)) ∧
    (∀ b : Double, bi_factor (.finite (7 / 2)) b =
      "Error: can only factor on integers\n".toList) ∧
    (∀ b : Double, bi_factor (.finite 2000000000) b =
      "Error: can only factor up to 1000000000\n".toList) := by
  have hE : ∀ ps : List Nat, 'E' ∉ number_lines ps := by
    intro ps hmem
    rcases number_lines_chars ps 'E' hmem with h | h
    · exact absurd h (by decide)
    · exact absurd h (by decide)
  have hE1 : 'E' ∈ "Error: can only factor on integers\n".toList := by decide
  have hE2 : 'E' ∈ "Error: can only factor up to 1000000000\n".toList := by decide
  have key : ∀ a b : Double,
      (bi_factor a b = "Error: can only factor on integers\n".toList ↔
        Double.ne (Double.modf a).1 (Double.ofInt 0) = true) ∧
      (bi_factor a b = "Error: can only factor up to 1000000000\n".toList ↔
        (Double.ne (Double.modf a).1 (Double.ofInt 0) = false ∧
          Double.gt (Double.modf a).2 (Double.ofInt 1000000000) = true)) := by
    intro a b
    have hmax : Double.ofInt (maxfactor : Int) = Double.ofInt 1000000000 := rfl
    unfold bi_factor
    rcases bi_factor_run_cases a b with ⟨h0, h⟩ | ⟨h0, h1, h⟩ | ⟨h0, h1, n, h2, hn, h⟩ |
      ⟨h0, h1, v, hv, h⟩
    · rw [h]
      refine ⟨⟨fun _ => h0, fun _ => rfl⟩, ⟨fun hc => absurd hc (by decide), fun hc => ?_⟩⟩
      rw [h0] at hc
      exact absurd hc.1 (by decide)
    · rw [h]
      rw [hmax] at h1
      refine ⟨⟨fun hc => absurd hc (by decide), fun hc => ?_⟩, ⟨fun _ => ⟨h0, h1⟩, fun _ => rfl⟩⟩
      rw [h0] at hc
      exact absurd hc (by decide)
    · obtain ⟨ps, h3, _⟩ := factor_loop_text n h2 (by omega)
      rw [h, h3]
      rw [hmax] at h1
      refine ⟨⟨fun hc => ?_, fun hc => ?_⟩, ⟨fun hc => ?_, fun hc => ?_⟩⟩
      · exact absurd (hc ▸ hE1) (hE ps)
      · rw [h0] at hc
        exact absurd hc (by decide)
      · exact absurd (hc ▸ hE2) (hE ps)
      · rw [h1] at hc
        exact absurd hc.2 (by decide)
    · rw [h, printint_nil v hv]
      rw [hmax] at h1
      refine ⟨⟨fun hc => ?_, fun hc => ?_⟩, ⟨fun hc => ?_, fun hc => ?_⟩⟩
      · have hc1 : number_lines [v] = "Error: can only factor on integers\n".toList := hc
        exact absurd (hc1 ▸ hE1) (hE [v])
      · rw [h0] at hc
        exact absurd hc (by decide)
      · have hc1 : number_lines [v] = "Error: can only factor up to 1000000000\n".toList := hc
        exact absurd (hc1 ▸ hE2) (hE [v])
      · rw [h1] at hc
        exact absurd hc.2 (by decide)
  refine ⟨fun a b => (key a b).1, fun a b => (key a b).2, fun b => ?_, fun b => ?_⟩
  · refine ((key (.finite (7 / 2)) b).1).2 ?_
    have h1 : ((7 / 2 : ℚ)).num = 7 := by norm_num
    have h2 : ((7 / 2 : ℚ)).den = 2 := by norm_num
    simp only [Double.modf, h1, h2]
    norm_num [Double.ne, Double.eq, Double.ofInt, Double.toRat, Int.tdiv]
  · refine ((key (.finite 2000000000) b).2).2 ?_
    have h3 : (Double.modf (.finite 2000000000)) = (.finite 0, .finite 2000000000) := by
      have := modf_natCast 2000000000
      simpa using this
    rw [h3]
    simp [Double.ne, Double.eq, Double.gt, Double.lt, Double.ofInt, Double.toRat]
    norm_num

/-! ## Integers: exact rounding, printing and parsing -/

theorem ilog_eq_log (b : Nat) (hb : 2 ≤ b) : ∀ fuel n : Nat, n ≤ fuel →
    ilog b fuel n = Nat.log b n := by
  intro fuel
  induction fuel with
  | zero =>
    intro n hn
    have : n = 0 := by omega
    subst this
    simp [ilog]
  | succ fuel ih =>
    intro n hn
    rw [ilog]
    by_cases h : n < b
    · rw [if_pos h, Nat.log_of_lt h]
    · rw [if_neg h, Nat.log_of_one_lt_of_le (by omega) (by omega)]
      have hlt : n / b < n := Nat.div_lt_self (by omega) (by omega)
      rw [ih (n / b) (by omega)]

theorem round_half_even_one (n : Nat) : round_half_even n 1 = n := by
  simp [round_half_even, Nat.mod_one]

theorem floor_log_one (b : Nat) (hb : 2 ≤ b) (n : Nat) (hn : 0 < n) :
    floor_log b n 1 = (Nat.log b n : Int) := by
  rw [floor_log, if_pos (show 1 ≤ n from hn), Nat.div_one, ilog_eq_log b hb n n le_rfl]

theorem scaled_round_one (b n k : Nat) : scaled_round b n 1 (-(k : Int)) = n * b ^ k := by
  unfold scaled_round
  by_cases hk : k = 0
  · subst hk
    simp [round_half_even_one]
  · have h : ¬ (0 ≤ -(k : Int)) := by omega
    rw [if_neg h, round_half_even_one]
    simp

theorem scale_neg (b n k : Nat) (hb : 0 < b) :
    scale (n * b ^ k) b (-(k : Int)) = (n : ℚ) := by
  unfold scale
  have hpow : ((b ^ k : Nat) : ℚ) ≠ 0 := by
    have : 0 < b ^ k := Nat.pow_pos hb
    exact_mod_cast (by omega : b ^ k ≠ 0)
  by_cases hk : k = 0
  · subst hk
    simp
  · have h : ¬ (0 ≤ -(k : Int)) := by omega
    rw [if_neg h]
    simp only [neg_neg, Int.toNat_ofNat]
    rw [Nat.cast_mul]
    exact mul_div_cancel_right₀ _ hpow

theorem round64_natCast (n : Nat) (h : n < 2 ^ 53) : round64 (n : ℚ) = .finite (n : ℚ) := by
  by_cases h0 : n = 0
  · subst h0
    simp [round64]
  · have hq : (n : ℚ) ≠ 0 := by exact_mod_cast h0
    have hq2 : ¬ ((n : ℚ) < 0) := by
      rw [not_lt]
      exact_mod_cast Nat.zero_le n
    have hL : Nat.log 2 n < 53 := Nat.log_lt_of_lt_pow h0 h
    obtain ⟨k, hk⟩ : ∃ k : Nat, Nat.log 2 n + k = 52 := ⟨52 - Nat.log 2 n, by omega⟩
    have he : max (floor_log 2 n 1 - 52) (-1074) = -(k : Int) := by
      rw [floor_log_one 2 le_rfl n (by omega)]
      omega
    simp only [round64, if_neg hq, Rat.num_natCast, Int.natAbs_ofNat, Rat.den_natCast, he,
      if_neg hq2]
    rw [scaled_round_one, scale_neg 2 n k (by decide)]
    have hm : n * 2 ^ k ≠ 0 := Nat.mul_ne_zero h0 (by positivity)
    rw [if_neg hm]
    have hc : ¬ (971 < -(k : Int) ∨ -(k : Int) = 971 ∧ 2 ^ 53 ≤ n * 2 ^ k) := by omega
    rw [if_neg hc]

theorem toDigits_mul_ten (m : Nat) (hm : 0 < m) :
    Nat.toDigits 10 (m * 10) = Nat.toDigits 10 m ++ ['0'] := by
  rw [toDigits_rec (m * 10), if_neg (by omega), Nat.mul_div_cancel m (by decide),
    Nat.mul_mod_left]
  rfl

theorem toDigits_mul_pow (m k : Nat) (hm : 0 < m) :
    Nat.toDigits 10 (m * 10 ^ k) = Nat.toDigits 10 m ++ List.replicate k '0' := by
  induction k with
  | zero => simp
  | succ k ih =>
    have hpos : 0 < m * 10 ^ k := Nat.mul_pos hm (Nat.pow_pos (by decide))
    rw [Nat.pow_succ, ← Nat.mul_assoc, toDigits_mul_ten _ hpos, ih, List.append_assoc,
      List.replicate_succ']

theorem toDigits_length (n : Nat) (hn : 0 < n) :
    (Nat.toDigits 10 n).length = Nat.log 10 n + 1 := by
  induction n using Nat.strong_induction_on with
  | _ n ih =>
    rw [toDigits_rec]
    by_cases h : n < 10
    · rw [if_pos h, Nat.log_of_lt h]
      rfl
    · rw [if_neg h, Nat.log_of_one_lt_of_le (by decide) (by omega), List.length_append,
        ih (n / 10) (by omega) (Nat.div_pos (by omega) (by decide))]
      rfl

theorem strip_zeros_replicate (k : Nat) : strip_zeros (List.replicate k '0') = [] := by
  unfold strip_zeros
  rw [List.reverse_replicate, List.reverse_eq_nil_iff, List.dropWhile_eq_nil_iff]
  intro c hc
  rw [List.eq_of_mem_replicate hc]
  simp

theorem fmt_g_pos_nat (n : Nat) (h0 : 0 < n) (h : n < 10 ^ 6) :
    fmt_g_pos n 1 = Nat.toDigits 10 n := by
  have hL : Nat.log 10 n < 6 := Nat.log_lt_of_lt_pow (by omega) h
  obtain ⟨k, hk⟩ : ∃ k : Nat, Nat.log 10 n + k = 5 := ⟨5 - Nat.log 10 n, by omega⟩
  have hx : floor_log 10 n 1 - 5 = -(k : Int) := by
    rw [floor_log_one 10 (by decide) n h0]
    omega
  have hlow : 10 ^ Nat.log 10 n ≤ n := Nat.pow_log_le_self 10 (by omega)
  have hup : n < 10 ^ (Nat.log 10 n + 1) := Nat.lt_pow_succ_log_self (by decide) n
  have hs : n * 10 ^ k < 10 ^ 6 := by
    calc n * 10 ^ k < 10 ^ (Nat.log 10 n + 1) * 10 ^ k :=
          Nat.mul_lt_mul_of_pos_right hup (Nat.pow_pos (by decide))
      _ = 10 ^ 6 := by rw [← Nat.pow_add]; congr 1; omega
  unfold fmt_g_pos
  simp only [hx, scaled_round_one, if_neg (Nat.ne_of_lt hs)]
  rw [floor_log_one 10 (by decide) n h0]
  have hr : (-4 : Int) ≤ (Nat.log 10 n : Int) ∧ (Nat.log 10 n : Int) < 6 := by omega
  rw [if_pos hr, if_pos (by omega), Int.toNat_ofNat, toDigits_mul_pow n k h0]
  have hlen : (Nat.toDigits 10 n).length = Nat.log 10 n + 1 := toDigits_length n h0
  rw [List.take_append_of_le_length (by omega), List.take_of_length_le (by omega),
    List.drop_append_of_le_length (by omega), List.drop_of_length_le (by omega)]
  simp [frac_part, strip_zeros_replicate]

theorem fmt_g_natCast (n : Nat) (h : n < 10 ^ 6) :
    fmt_g (.finite (n : ℚ)) = Nat.toDigits 10 n := by
  by_cases h0 : n = 0
  · subst h0
    simp [fmt_g]
    rfl
  · have hq : (n : ℚ) ≠ 0 := by exact_mod_cast h0
    have hq2 : ¬ ((n : ℚ) < 0) := by
      rw [not_lt]
      exact_mod_cast Nat.zero_le n
    simp only [fmt_g, if_neg hq, if_neg hq2, Rat.num_natCast, Int.natAbs_ofNat,
      Rat.den_natCast]
    exact fmt_g_pos_nat n (by omega) h


theorem isDigit_cases (c : Char) (h : c.isDigit = true) :
    ∃ d, d < 10 ∧ c = Nat.digitChar d := by
  have h1 : 48 ≤ c.toNat ∧ c.toNat ≤ 57 := by
    simp only [Char.isDigit, Bool.and_eq_true, decide_eq_true_eq] at h
    exact h
  have h2 : c = Char.ofNat c.toNat := (Char.ofNat_toNat c).symm
  obtain ⟨n, hn⟩ : ∃ n, c.toNat = n := ⟨_, rfl⟩
  rw [hn] at h1 h2
  obtain ⟨h3, h4⟩ := h1
  refine ⟨n - 48, by omega, ?_⟩
  rw [h2]
  interval_cases n <;> rfl

/-- What may follow a numeral without being read as part of it. -/
theorem span_digits (ds rest : List Char) (hd : ∀ c ∈ ds, c.isDigit = true)
    (hr : ∀ c, rest.head? = some c → c.isDigit = false) :
    (ds ++ rest).takeWhile isdigit = ds ∧ (ds ++ rest).dropWhile isdigit = rest := by
  induction ds with
  | nil =>
    cases rest with
    | nil => simp
    | cons c r =>
      have := hr c rfl
      simp [isdigit, this]
  | cons d ds ih =>
    have h1 : d.isDigit = true := hd d (by simp)
    have h2 := ih (fun c hc => hd c (by simp [hc]))
    simp [isdigit, h1] at h2 ⊢
    exact h2

theorem strtod_hex_digits (c : Char) (cs rest : List Char)
    (hd : ∀ x ∈ cs, x.isDigit = true)
    (hr : ∀ x, rest.head? = some x → x ≠ 'x' ∧ x ≠ 'X') :
    strtod_hex (c :: cs ++ rest) = none := by
  have hx : ∀ x r, cs ++ rest = x :: r → x ≠ 'x' ∧ x ≠ 'X' := by
    intro x r h
    cases cs with
    | nil =>
      simp only [List.nil_append] at h
      exact hr x (by rw [h]; rfl)
    | cons y ys =>
      simp only [List.cons_append, List.cons.injEq] at h
      have := hd y (by simp)
      rw [h.1] at this
      constructor <;> intro e <;> subst e <;> exact absurd this (by decide)
  unfold strtod_hex
  split
  · rename_i x r heq
    simp only [List.cons_append, List.cons.injEq] at heq
    have := hx x r heq.2
    rw [if_neg (by tauto)]
  · rfl

theorem digit_not_special (c : Char) (hc : c.isDigit = true) :
    c.toLower ≠ 'i' ∧ c.toLower ≠ 'n' ∧ isspace c = false ∧ c ≠ '-' ∧ c ≠ '+' := by
  obtain ⟨d, hd10, rfl⟩ := isDigit_cases c hc
  interval_cases d <;> decide

theorem strtod_body_digits (c : Char) (cs rest : List Char) (hc : c.isDigit = true)
    (hd : ∀ x ∈ cs, x.isDigit = true)
    (hr : ∀ x, rest.head? = some x →
      x.isDigit = false ∧ x ≠ '.' ∧ x ≠ 'e' ∧ x ≠ 'E' ∧ x ≠ 'x' ∧ x ≠ 'X') :
    strtod_body (c :: cs ++ rest) =
      some ((if digits_value 10 (c :: cs) = 0 then Double.finite 0
        else round64 (digits_value 10 (c :: cs) : ℚ)), rest) := by
  have hhex := strtod_hex_digits c cs rest hd
    (fun x hx => ⟨(hr x hx).2.2.2.2.1, (hr x hx).2.2.2.2.2⟩)
  have hspan := span_digits (c :: cs) rest
    (fun x hx => by
      rcases List.mem_cons.1 hx with h | h
      · rw [h]; exact hc
      · exact hd x h)
    (fun x hx => (hr x hx).1)
  obtain ⟨hi, hn, _, _, _⟩ := digit_not_special c hc
  have h1 : ¬ (((c :: cs ++ rest).take 8).map Char.toLower = "infinity".toList) := by
    intro h
    have h2 := congrArg List.head? h
    simp at h2
    exact hi h2
  have h2 : ¬ (((c :: cs ++ rest).take 3).map Char.toLower = "inf".toList) := by
    intro h
    have h2 := congrArg List.head? h
    simp at h2
    exact hi h2
  have h3 : ¬ (((c :: cs ++ rest).take 3).map Char.toLower = "nan".toList) := by
    intro h
    have h2 := congrArg List.head? h
    simp at h2
    exact hn h2
  have hdot : ¬ (rest.head? = some '.') := fun h => (hr _ h).2.1 rfl
  have he : ¬ (rest.head? = some 'e' ∨ rest.head? = some 'E') := by
    rintro (h | h)
    · exact (hr _ h).2.2.1 rfl
    · exact (hr _ h).2.2.2.1 rfl
  have hdec : strtod_dec (c :: cs ++ rest) =
      some ((if digits_value 10 (c :: cs) = 0 then Double.finite 0
        else round64 (digits_value 10 (c :: cs) : ℚ)), rest) := by
    unfold strtod_dec
    simp only [hspan.1, hspan.2, if_neg hdot, if_neg he, List.append_nil, List.length_nil]
    rw [if_neg (by simp)]
    simp [scale]
  unfold strtod_body
  rw [if_neg h1, if_neg h2, if_neg h3, hhex, hdec]

theorem strtod_digits (ds rest : List Char) (hne : ds ≠ [])
    (hd : ∀ x ∈ ds, x.isDigit = true)
    (hr : ∀ x, rest.head? = some x →
      x.isDigit = false ∧ x ≠ '.' ∧ x ≠ 'e' ∧ x ≠ 'E' ∧ x ≠ 'x' ∧ x ≠ 'X') :
    strtod (ds ++ rest) =
      ((if digits_value 10 ds = 0 then Double.finite 0
        else round64 (digits_value 10 ds : ℚ)), rest) := by
  cases ds with
  | nil => exact absurd rfl hne
  | cons c cs =>
    have hc : c.isDigit = true := hd c (by simp)
    obtain ⟨_, _, hsp, hm, hp⟩ := digit_not_special c hc
    have hbody := strtod_body_digits c cs rest hc (fun x hx => hd x (by simp [hx])) hr
    unfold strtod
    have ht : (c :: cs ++ rest).dropWhile isspace = c :: cs ++ rest := by
      simp [List.dropWhile, hsp]
    simp only [ht]
    have hh : (c :: cs ++ rest).head? = some c := rfl
    have hsign : ¬ ((c :: cs ++ rest).head? = some '-' ∨ (c :: cs ++ rest).head? = some '+') := by
      rw [hh]
      rintro (h | h)
      · exact hm (Option.some.inj h)
      · exact hp (Option.some.inj h)
    rw [if_neg hsign, hbody]
    have hneg : ¬ ((c :: cs ++ rest).head? = some '-') := fun h => hsign (Or.inl h)
    simp only [if_neg hneg]

theorem strtod_toDigits (n : Nat) (h : n < 2 ^ 53) (rest : List Char)
    (hr : ∀ x, rest.head? = some x →
      x.isDigit = false ∧ x ≠ '.' ∧ x ≠ 'e' ∧ x ≠ 'E' ∧ x ≠ 'x' ∧ x ≠ 'X') :
    strtod (Nat.toDigits 10 n ++ rest) = (.finite (n : ℚ), rest) := by
  rw [strtod_digits _ rest (toDigits_ne_nil n) (toDigits_isDigit n) hr, digits_value_toDigits,
    round64_natCast n h]
  by_cases h0 : n = 0
  · subst h0
    simp
  · rw [if_neg h0]

/-! ## Classification and listing at particular paths -/

/-- C10: `bi_div` with a divisor equal to zero (either zero) leaves exactly the divide-by-zero
message, whatever the dividend; the path `/div/6/0` is matched by the `div` entry, classified
as a file, opened and stat-ed without error. -/
theorem bi_div_by_zero :
    (∀ a b : Double, Double.eq b (Double.ofInt 0) = true →
      bi_div a b = "Error: Divide by zero\n".toList) ∧
    find_builtin "/div/6/0".toList = 5 ∧
    pathType "/div/6/0".toList 5 = .mf_file ∧
    mathfs_open "/div/6/0".toList O_RDONLY = 0 ∧
    ∀ pow g, (mathfs_getattr pow g "/div/6/0".toList).2.1 = 0 := by
  refine ⟨fun a b h => ?_, by decide, by decide, by decide, fun pow g => ?_⟩
  · simp [bi_div, h, divzero_error]
  · have h1 : find_builtin "/div/6/0".toList = 5 := by decide
    have h2 : pathType "/div/6/0".toList 5 = .mf_file := by decide
    have h3 : ¬ ("/div/6/0".toList = "/".toList) := by decide
    rw [mathfs_getattr, if_neg h3, h1, if_pos (by decide), h2]

theorem bi_div_by_zero_witness :
    bi_div (Double.finite 6) (Double.finite 0) = "Error: Divide by zero\n".toList ∧
    bi_div (Double.finite 6) Double.negzero = "Error: Divide by zero\n".toList :=
  ⟨bi_div_by_zero.1 _ _ (by simp [Double.eq, Double.ofInt, Double.toRat]),
   bi_div_by_zero.1 _ _ (by simp [Double.eq, Double.ofInt, Double.toRat])⟩

/-- C15: `/add/3` is classified as a directory and `mathfs_getattr` reports it without
error, but `mathfs_readdir` compares the path with the operation names only and returns
`-ENOENT` for it; the operation root `/add` is listed with the one entry `doc`. -/
theorem readdir_operand_directory :
    find_builtin "/add/3".toList = 2 ∧
    pathType "/add/3".toList 2 = .mf_dir ∧
    (∀ pow g, (mathfs_getattr pow g "/add/3".toList).2 = (0, ⟨S_IFDIR ||| 0o755, 2, 0⟩)) ∧
    mathfs_readdir "/add/3".toList = (-ENOENT, []) ∧
    mathfs_readdir "/add".toList = (0, ["doc".toList]) := by
  refine ⟨by decide, by decide, fun pow g => ?_, by decide, by decide⟩
  have h1 : find_builtin "/add/3".toList = 2 := by decide
  have h2 : pathType "/add/3".toList 2 = .mf_dir := by decide
  have h3 : ¬ ("/add/3".toList = "/".toList) := by decide
  rw [mathfs_getattr, if_neg h3, h1, if_pos (by decide), h2]

/-- C16, counterexample: `-3` is accepted by `isNum`, although its first character is
neither a digit nor `.`, so that condition (b) read over every character fails. -/
theorem isNum_three_conditions_counterexample :
    ¬ (isNum "-3".toList = 1 ↔
        (("-3".toList.head?.any fun c => c.isDigit || c = '+' || c = '-' || c = '.') = true ∧
          (∀ c ∈ "-3".toList, c.isDigit = true ∨ c = '.') ∧
          "-3".toList.count '.' ≤ 1)) := by
  decide

/-- C16, amended: `isNum s` is 1 iff (a) the first character is a digit, `+`, `-` or `.`,
(b) every character after the first is a digit or `.`, and (c) at most one `.` occurs in the
whole token; the empty string is invalid. -/
theorem isNum_three_conditions :
    (∀ s : List Char,
      isNum s = 1 ↔
        ((s.head?.any fun c => c.isDigit || c = '+' || c = '-' || c = '.') = true ∧
          (∀ c ∈ s.tail, c.isDigit = true ∨ c = '.') ∧
          s.count '.' ≤ 1)) ∧
    isNum [] = 0 := by
  refine ⟨fun s => ?_, rfl⟩
  cases s with
  | nil => simp [isNum]
  | cons c cs =>
    rw [isNum_cons_eq_one_iff]
    simp only [List.head?_cons, Option.any_some, List.tail_cons, Bool.or_eq_true,
      decide_eq_true_eq]
    constructor
    · rintro ⟨h1, h2, h3⟩
      exact ⟨by tauto, h2, h3⟩
    · rintro ⟨h1, h2, h3⟩
      exact ⟨by tauto, h2, h3⟩

/-- C20: in `/fib512` the operation name `/fib` is followed by `5`, not by the separator;
`pathType` skips that character unexamined, validates `12` and classifies the path as a file,
which `mathfs_open` then opens. In the same way `/add55` is classified as a directory. -/
theorem pathType_missing_separator :
    find_builtin "/fib512".toList = 1 ∧
    ("/fib512".toList.drop (builtin 1).path.length).head? = some '5' ∧
    pathType "/fib512".toList 1 = .mf_file ∧
    mathfs_open "/fib512".toList O_RDONLY = 0 ∧
    find_builtin "/add55".toList = 2 ∧
    pathType "/add55".toList 2 = .mf_dir := by
  decide


/-! ## Reading a byte range -/

theorem to_int_of_lt (n : Nat) (h : n < 2 ^ 31) : to_int n = n := by
  have h1 : n % 2 ^ 32 = n := Nat.mod_eq_of_lt (by omega)
  unfold to_int
  rw [h1, if_pos h]

theorem offset_toNat (off : Nat) (h : off < 2 ^ 64) : ((off : Int) % 2 ^ 64).toNat = off := by
  have h1 : ((off : Int) % 2 ^ 64) = ((off % 2 ^ 64 : Nat) : Int) := by norm_cast
  rw [h1, Int.toNat_ofNat, Nat.mod_eq_of_lt h]

/-- When `offset + size` does not wrap, `read_text` hands back the bytes
`text[offset, min (offset + size) len)` and returns their number. -/
theorem read_text_of_no_wrap (text : List Char) (size off : Nat)
    (hsum : off + size < 2 ^ 64) (hlen : text.length < 2 ^ 31) :
    read_text text size (off : Int) =
      ⟨(min size (text.length - off) : Nat), some ((text.drop off).take size)⟩ := by
  have hoff : ((off : Int) % 2 ^ 64).toNat = off := offset_toNat off (by omega)
  unfold read_text
  rw [hoff, Nat.mod_eq_of_lt hsum]
  by_cases h1 : off < text.length
  · rw [if_pos h1]
    by_cases h2 : off + size > text.length
    · rw [if_pos h2, to_int_of_lt _ (by omega)]
      have hm : min size (text.length - off) = text.length - off := by omega
      have hl : (text.drop off).length = text.length - off := List.length_drop _ _
      rw [hm, memcpy, if_pos (by omega)]
      congr 2
      rw [List.take_of_length_le (by omega), List.take_of_length_le (by omega)]
    · rw [if_neg h2, to_int_of_lt _ (by omega)]
      have hm : min size (text.length - off) = size := by omega
      have hl : (text.drop off).length = text.length - off := List.length_drop _ _
      rw [hm, memcpy, if_pos (by omega)]
  · rw [if_neg h1]
    have hm : min size (text.length - off) = 0 := by omega
    rw [hm, List.drop_of_length_le (by omega)]
    simp

theorem find_builtin_add (r : List Char) : find_builtin ("/add/".toList ++ r) = 2 := by
  simp [find_builtin, builtins, List.findIdx_cons, strncmp_eq]

theorem ne_natCast_cases (a : Nat) (y : Double)
    (h : Double.ne (.finite (a : ℚ)) y = false) :
    y = .finite (a : ℚ) ∨ (a = 0 ∧ y = .negzero) := by
  cases y with
  | finite q =>
    left
    simp [Double.ne, Double.eq, Double.toRat] at h
    rw [h]
  | negzero =>
    right
    simp [Double.ne, Double.eq, Double.toRat] at h
    exact ⟨h, rfl⟩
  | inf s => simp [Double.ne, Double.eq] at h
  | nan s => simp [Double.ne, Double.eq] at h

theorem add_natCast (a b : Nat) (h : a + b < 2 ^ 53) :
    Double.add (.finite (a : ℚ)) (.finite (b : ℚ)) = .finite ((a + b : Nat) : ℚ) := by
  simp only [Double.add, Double.toRat, Double.signbit]
  have hc : (a : ℚ) + (b : ℚ) = ((a + b : Nat) : ℚ) := by push_cast; rfl
  rw [hc]
  by_cases h0 : a + b = 0
  · have hq : ((a + b : Nat) : ℚ) = 0 := by exact_mod_cast h0
    have ha : ¬ ((a : ℚ) < 0) := by
      rw [not_lt]
      exact_mod_cast Nat.zero_le a
    rw [if_pos hq, hq]
    simp [Double.signed_zero, ha]
  · have hq : ((a + b : Nat) : ℚ) ≠ 0 := by exact_mod_cast h0
    rw [if_neg hq, round64_natCast _ h]

theorem add_negzero_left (b : Nat) (h : b < 2 ^ 53) :
    Double.add .negzero (.finite (b : ℚ)) = .finite (b : ℚ) := by
  simp only [Double.add, Double.toRat, Double.signbit, zero_add]
  by_cases h0 : b = 0
  · subst h0
    simp [Double.signed_zero]
  · have hq : (b : ℚ) ≠ 0 := by exact_mod_cast h0
    rw [if_neg hq, round64_natCast _ h]

theorem add_negzero_right (a : Nat) (h : a < 2 ^ 53) :
    Double.add (.finite (a : ℚ)) .negzero = .finite (a : ℚ) := by
  simp only [Double.add, Double.toRat, Double.signbit, add_zero]
  by_cases h0 : a = 0
  · subst h0
    simp [Double.signed_zero]
  · have hq : (a : ℚ) ≠ 0 := by exact_mod_cast h0
    rw [if_neg hq, round64_natCast _ h]

theorem snprintf_short (text : List Char) (h : text.length < maxbufsize) :
    snprintf maxbufsize text = text := by
  unfold snprintf
  exact List.take_of_length_le (by omega)

theorem line_natCast (n : Nat) (h : n < 10 ^ 6) :
    snprintf maxbufsize (fmt_g (.finite (n : ℚ)) ++ ['\n']) = Nat.toDigits 10 n ++ ['\n'] := by
  rw [fmt_g_natCast n h]
  apply snprintf_short
  have := toDigits_length_le n 6 (by decide) h
  have hm : maxbufsize = 3600 := by decide
  simp only [List.length_append, List.length_singleton]
  omega

theorem slash_not_numeral (x : Char) (r : List Char) (h : ('/' :: r).head? = some x) :
    x.isDigit = false ∧ x ≠ '.' ∧ x ≠ 'e' ∧ x ≠ 'E' ∧ x ≠ 'x' ∧ x ≠ 'X' := by
  have : x = '/' := (Option.some.inj h).symm
  subst this
  decide

theorem strtod_operands (a b : Nat) (ha : a < 2 ^ 53) (hb : b < 2 ^ 53) :
    strtod (Nat.toDigits 10 a ++ '/' :: Nat.toDigits 10 b) =
      (.finite (a : ℚ), '/' :: Nat.toDigits 10 b) ∧
    strtod (Nat.toDigits 10 b) = (.finite (b : ℚ), []) := by
  constructor
  · exact strtod_toDigits a ha _ (fun x hx => slash_not_numeral x _ hx)
  · have := strtod_toDigits b hb [] (fun x hx => by simp at hx)
    simpa using this

/-- The memo slot after the block for the file `/add/<a>/<b>` holds the line of `a + b`,
unless it held a result for `-0` and `-0` before. -/
theorem compute_file_add (pow : Double → Double → Double) (g : Globals) (a b : Nat)
    (hab : a + b ≤ 999999)
    (hcoh : g.last_f = some .bi_add → g.results_buf = bi_add g.last_a g.last_b)
    (hz : ¬ (g.last_f = some .bi_add ∧ g.last_a = .negzero ∧ g.last_b = .negzero)) :
    (compute_file pow g ("/add/".toList ++ Nat.toDigits 10 a ++ '/' :: Nat.toDigits 10 b)
      2).results_buf = Nat.toDigits 10 (a + b) ++ ['\n'] := by
  obtain ⟨h1, h2⟩ := strtod_operands a b (by omega) (by omega)
  have hdrop : ("/add/".toList ++ Nat.toDigits 10 a ++ '/' :: Nat.toDigits 10 b).drop
      ((builtin 2).path.length + 1) = Nat.toDigits 10 a ++ '/' :: Nat.toDigits 10 b := by
    have : (builtin 2).path.length + 1 = 5 := by decide
    rw [this]
    rfl
  have hn : (builtin 2).nops = 2 := by decide
  have hf : (builtin 2).f = .bi_add := by decide
  have hline : bi_add (.finite (a : ℚ)) (.finite (b : ℚ)) =
      Nat.toDigits 10 (a + b) ++ ['\n'] := by
    rw [bi_add, add_natCast a b (by omega), line_natCast _ (by omega)]
  unfold compute_file
  simp only [hdrop, h1, h2, hn, hf, if_true, List.drop_succ_cons, List.drop_zero]
  split
  · simp only [MathFn.call]
    exact hline
  · rename_i hhit
    simp only [not_or, not_not, Bool.not_eq_true] at hhit
    obtain ⟨hf', ha', hb'⟩ := hhit
    rw [hcoh hf', bi_add]
    rcases ne_natCast_cases a _ ha' with ea | ⟨ea0, ea⟩ <;>
      rcases ne_natCast_cases b _ hb' with eb | ⟨eb0, eb⟩
    · rw [ea, eb, add_natCast a b (by omega), line_natCast _ (by omega)]
    · subst eb0
      rw [ea, eb, add_negzero_right a (by omega), Nat.add_zero, line_natCast _ (by omega)]
    · subst ea0
      rw [ea, eb, add_negzero_left b (by omega), Nat.zero_add, line_natCast _ (by omega)]
    · exact absurd ⟨hf', ea, eb⟩ hz

theorem pathType_add_operands (a b : Nat) :
    pathType ("/add/".toList ++ Nat.toDigits 10 a ++ '/' :: Nat.toDigits 10 b) 2 = .mf_file := by
  have hA : '/' ∉ Nat.toDigits 10 a := by
    intro h
    exact absurd (toDigits_isDigit a '/' h) (by decide)
  have hs := strchr_append_of_not_mem (Nat.toDigits 10 a) (Nat.toDigits 10 b) '/' hA
  have hB : isNum (Nat.toDigits 10 b) = 1 := by
    rw [isNum_eq_one_iff]
    obtain ⟨c, cs, hcs⟩ := List.exists_cons_of_ne_nil (toDigits_ne_nil b)
    have hall : ∀ x ∈ c :: cs, x.isDigit = true := by
      rw [← hcs]
      exact toDigits_isDigit b
    refine ⟨c, cs, hcs, Or.inr (Or.inr (Or.inr (hall c (by simp)))),
      fun x hx => Or.inl (hall x (by simp [hx])), ?_⟩
    rw [List.count_eq_zero_of_not_mem]
    · exact Nat.zero_le 1
    · intro h
      exact absurd (toDigits_isDigit b '.' h) (by decide)
  have hdoc : Nat.toDigits 10 a ++ '/' :: Nat.toDigits 10 b ≠ ['d', 'o', 'c'] := by
    intro h
    have hm : '/' ∈ Nat.toDigits 10 a ++ '/' :: Nat.toDigits 10 b := by simp
    rw [h] at hm
    exact absurd hm (by decide)
  simp [pathType, builtin, builtins, docdir, hs, hdoc, hB]

theorem stale_zero (pow : Double → Double → Double) :
    (mathfs_read pow (mathfs_read pow Globals.init "/add/-0/-0".toList 3 0).1
      "/add/0/0".toList 3 0).2 = ⟨3, some "-0\n".toList⟩ := by
  have hf1 : find_builtin "/add/-0/-0".toList = 2 := by decide
  have hf2 : find_builtin "/add/0/0".toList = 2 := by decide
  have hp1 : pathType "/add/-0/-0".toList 2 = .mf_file := by decide
  have hp2 : pathType "/add/0/0".toList 2 = .mf_file := by decide
  have hs1 : strtod ("/add/-0/-0".toList.drop ((builtin 2).path.length + 1)) =
      (Double.negzero, "/-0".toList) := by decide
  have hs2 : strtod ("/-0".toList.drop 1) = (Double.negzero, []) := by decide
  have hs3 : strtod ("/add/0/0".toList.drop ((builtin 2).path.length + 1)) =
      (Double.finite 0, "/0".toList) := by decide
  have hs4 : strtod ("/0".toList.drop 1) = (Double.finite 0, []) := by decide
  have hadd : bi_add Double.negzero Double.negzero = "-0\n".toList := by
    have : Double.add Double.negzero Double.negzero = Double.negzero := by
      simp [Double.add, Double.toRat, Double.signbit, Double.signed_zero]
    rw [bi_add, this]
    decide
  have hg1 : compute_file pow Globals.init "/add/-0/-0".toList 2 =
      ⟨"-0\n".toList, some .bi_add, Double.negzero, Double.negzero, 1⟩ := by
    unfold compute_file
    simp only [hs1, hs2]
    rw [if_pos (Or.inl (by decide))]
    simp only [show (builtin 2).nops = 2 from by decide, show (builtin 2).f = .bi_add from by decide,
      if_true, MathFn.call, hadd]
    rfl
  have hg2 : compute_file pow ⟨"-0\n".toList, some .bi_add, Double.negzero, Double.negzero, 1⟩
      "/add/0/0".toList 2 =
      ⟨"-0\n".toList, some .bi_add, Double.negzero, Double.negzero, 1⟩ := by
    unfold compute_file
    simp only [hs3, hs4]
    rw [if_neg (by decide)]
  have hm1 : (mathfs_read pow Globals.init "/add/-0/-0".toList 3 0).1 =
      ⟨"-0\n".toList, some .bi_add, Double.negzero, Double.negzero, 1⟩ := by
    rw [mathfs_read, hf1, if_pos (by decide), hp1]
    exact hg1
  rw [hm1, mathfs_read, hf2, if_pos (by decide), hp2]
  simp only [hg2]
  decide

/-- C3: a read of `/add/<a>/<b>` from offset 0 with room for the whole text, for naturals `a`
and `b` written as decimal numerals with `a + b ≤ 999999`: the path is a file, and the read
returns the numeral of `a + b` and a newline whenever the memo slot is empty or holds what
`bi_add` left for its key, that key not being `(-0, -0)`; `/add/3/4` gives `7\n`. In the one
state left out the claim fails: after a read of the file of the operands `-0` and `-0` the
file `/add/0/0` reads `-0\n`, because the comparison `!=` takes `0` and `-0` for the same
operand. -/
theorem add_file_content (pow : Double → Double → Double) :
    (∀ (g : Globals) (a b size : Nat), a + b ≤ 999999 →
      (g.last_f = some .bi_add → g.results_buf = bi_add g.last_a g.last_b) →
      ¬ (g.last_f = some .bi_add ∧ g.last_a = .negzero ∧ g.last_b = .negzero) →
      (Nat.toDigits 10 (a + b)).length + 1 ≤ size → size < 2 ^ 64 →
      pathType ("/add/".toList ++ Nat.toDigits 10 a ++ '/' :: Nat.toDigits 10 b)
        (find_builtin ("/add/".toList ++ Nat.toDigits 10 a ++ '/' :: Nat.toDigits 10 b)) =
        .mf_file ∧
      (mathfs_read pow g ("/add/".toList ++ Nat.toDigits 10 a ++ '/' :: Nat.toDigits 10 b)
        size 0).2 =
        ⟨(((Nat.toDigits 10 (a + b)).length + 1 : Nat) : Int),
          some (Nat.toDigits 10 (a + b) ++ ['\n'])⟩) ∧
    (mathfs_read pow Globals.init "/add/3/4".toList 2 0).2 = ⟨2, some "7\n".toList⟩ ∧
    (mathfs_read pow (mathfs_read pow Globals.init "/add/-0/-0".toList 3 0).1
      "/add/0/0".toList 3 0).2 = ⟨3, some "-0\n".toList⟩ := by
  have main : ∀ (g : Globals) (a b size : Nat), a + b ≤ 999999 →
      (g.last_f = some .bi_add → g.results_buf = bi_add g.last_a g.last_b) →
      ¬ (g.last_f = some .bi_add ∧ g.last_a = .negzero ∧ g.last_b = .negzero) →
      (Nat.toDigits 10 (a + b)).length + 1 ≤ size → size < 2 ^ 64 →
      pathType ("/add/".toList ++ Nat.toDigits 10 a ++ '/' :: Nat.toDigits 10 b)
        (find_builtin ("/add/".toList ++ Nat.toDigits 10 a ++ '/' :: Nat.toDigits 10 b)) =
        .mf_file ∧
      (mathfs_read pow g ("/add/".toList ++ Nat.toDigits 10 a ++ '/' :: Nat.toDigits 10 b)
        size 0).2 =
        ⟨(((Nat.toDigits 10 (a + b)).length + 1 : Nat) : Int),
          some (Nat.toDigits 10 (a + b) ++ ['\n'])⟩ := by
    intro g a b size hab hcoh hz hsize hsz
    have hfp : find_builtin ("/add/".toList ++ Nat.toDigits 10 a ++ '/' :: Nat.toDigits 10 b) =
        2 := by
      rw [List.append_assoc]
      exact find_builtin_add _
    have hpt := pathType_add_operands a b
    have hbuf := compute_file_add pow g a b hab hcoh hz
    have hlen := toDigits_length_le (a + b) 6 (by decide) (by omega)
    refine ⟨by rw [hfp]; exact hpt, ?_⟩
    rw [mathfs_read, hfp, if_pos (by decide), hpt]
    simp only [hbuf]
    have hr := read_text_of_no_wrap (Nat.toDigits 10 (a + b) ++ ['\n']) size 0
      (by omega) (by simp only [List.length_append, List.length_singleton]; omega)
    simp only [Nat.cast_zero, List.drop_zero, Nat.sub_zero] at hr
    rw [hr, List.take_of_length_le (by simpa using hsize), Nat.min_eq_right (by simpa using hsize)]
    simp
  refine ⟨main, ?_, stale_zero pow⟩
  have h := (main Globals.init 3 4 2 (by decide) (fun h => absurd h (by decide))
    (fun h => absurd h.1 (by decide)) (by decide) (by decide)).2
  exact h

theorem add_file_content_witness :
    (mathfs_read (fun _ _ => Double.finite 0) Globals.init
      ("/add/".toList ++ Nat.toDigits 10 120 ++ '/' :: Nat.toDigits 10 3) 4096 0).2 =
      ⟨(((Nat.toDigits 10 (120 + 3)).length + 1 : Nat) : Int),
        some (Nat.toDigits 10 (120 + 3) ++ ['\n'])⟩ :=
  ((add_file_content (fun _ _ => Double.finite 0)).1 Globals.init 120 3 4096 (by decide)
    (fun h => absurd h (by decide)) (fun h => absurd h.1 (by decide)) (by decide)
    (by decide)).2

/-! ## Rendering with six significant digits -/

theorem compute_file_eq (pow : Double → Double → Double) (g : Globals) (path : List Char)
    (i : Nat) :
    compute_file pow g path i =
      if g.last_f ≠ some (builtin i).f ∨ Double.ne (operand_a path i) g.last_a = true ∨
          Double.ne (operand_b path i) g.last_b = true then
        ⟨MathFn.call pow (builtin i).f (operand_a path i) (operand_b path i),
          some (builtin i).f, operand_a path i, operand_b path i, g.calls + 1⟩
      else g := rfl

theorem compute_file_hit (pow : Double → Double → Double) (g : Globals) (path : List Char)
    (i : Nat) (hf : g.last_f = some (builtin i).f)
    (ha : Double.ne (operand_a path i) g.last_a = false)
    (hb : Double.ne (operand_b path i) g.last_b = false) :
    compute_file pow g path i = g := by
  rw [compute_file_eq, if_neg]
  simp [hf, ha, hb]

theorem compute_file_miss (pow : Double → Double → Double) (g : Globals) (path : List Char)
    (i : Nat)
    (h : g.last_f ≠ some (builtin i).f ∨ Double.ne (operand_a path i) g.last_a = true ∨
      Double.ne (operand_b path i) g.last_b = true) :
    compute_file pow g path i =
      ⟨MathFn.call pow (builtin i).f (operand_a path i) (operand_b path i),
        some (builtin i).f, operand_a path i, operand_b path i, g.calls + 1⟩ := by
  rw [compute_file_eq, if_pos h]

/-- The text served for a file does not change when the block runs again. -/
theorem compute_file_buf_idem (pow : Double → Double → Double) (g : Globals)
    (path : List Char) (i : Nat) :
    (compute_file pow (compute_file pow g path i) path i).results_buf =
      (compute_file pow g path i).results_buf := by
  by_cases h : g.last_f ≠ some (builtin i).f ∨ Double.ne (operand_a path i) g.last_a = true ∨
      Double.ne (operand_b path i) g.last_b = true
  · rw [compute_file_miss pow g path i h]
    rw [compute_file_eq]
    split <;> rfl
  · have hg : compute_file pow g path i = g := by rw [compute_file_eq, if_neg h]
    rw [hg, hg]

/-- Running the block again for the same path makes no new call, unless an operand is a NaN. -/
theorem compute_file_twice (pow : Double → Double → Double) (g : Globals) (path : List Char)
    (i : Nat) (ha : Double.ne (operand_a path i) (operand_a path i) = false)
    (hb : Double.ne (operand_b path i) (operand_b path i) = false) :
    compute_file pow (compute_file pow g path i) path i = compute_file pow g path i := by
  by_cases h : g.last_f ≠ some (builtin i).f ∨ Double.ne (operand_a path i) g.last_a = true ∨
      Double.ne (operand_b path i) g.last_b = true
  · rw [compute_file_miss pow g path i h]
    exact compute_file_hit pow _ path i rfl ha hb
  · have hg : compute_file pow g path i = g := by rw [compute_file_eq, if_neg h]
    rw [hg, hg]

theorem mathfs_read_file (pow : Double → Double → Double) (g : Globals) (path : List Char)
    (size : Nat) (offset : Int) (h1 : find_builtin path < max_builtins)
    (h2 : pathType path (find_builtin path) = .mf_file) :
    mathfs_read pow g path size offset =
      (compute_file pow g path (find_builtin path),
        read_text (compute_file pow g path (find_builtin path)).results_buf size offset) := by
  rw [mathfs_read, if_pos h1, h2]

theorem sub_zero_trace (pow : Double → Double → Double) :
    operand_a "/sub/-0/0".toList 3 = .negzero ∧
    mathfs_read pow Globals.init "/sub/0/0".toList 3 0 =
      (⟨"0\n".toList, some .bi_sub, .finite 0, .finite 0, 1⟩, ⟨2, some "0\n".toList⟩) ∧
    mathfs_read pow ⟨"0\n".toList, some .bi_sub, .finite 0, .finite 0, 1⟩
        "/sub/-0/0".toList 3 0 =
      (⟨"0\n".toList, some .bi_sub, .finite 0, .finite 0, 1⟩, ⟨2, some "0\n".toList⟩) ∧
    mathfs_read pow Globals.init "/sub/-0/0".toList 3 0 =
      (⟨"-0\n".toList, some .bi_sub, .negzero, .finite 0, 1⟩, ⟨3, some "-0\n".toList⟩) := by
  have hf1 : find_builtin "/sub/0/0".toList = 3 := by decide
  have hf2 : find_builtin "/sub/-0/0".toList = 3 := by decide
  have hp1 : pathType "/sub/0/0".toList 3 = .mf_file := by decide
  have hp2 : pathType "/sub/-0/0".toList 3 = .mf_file := by decide
  have ha1 : operand_a "/sub/0/0".toList 3 = .finite 0 := by decide
  have hb1 : operand_b "/sub/0/0".toList 3 = .finite 0 := by decide
  have ha2 : operand_a "/sub/-0/0".toList 3 = .negzero := by decide
  have hb2 : operand_b "/sub/-0/0".toList 3 = .finite 0 := by decide
  have hf : (builtin 3).f = .bi_sub := by decide
  have hs1 : bi_sub (.finite 0) (.finite 0) = "0\n".toList := by
    have : Double.sub (.finite 0) (.finite 0) = .finite 0 := by
      simp [Double.sub, Double.neg, Double.add, Double.toRat, Double.signbit,
        Double.signed_zero]
    rw [bi_sub, this]
    decide
  have hs2 : bi_sub .negzero (.finite 0) = "-0\n".toList := by
    have : Double.sub .negzero (.finite 0) = .negzero := by
      simp [Double.sub, Double.neg, Double.add, Double.toRat, Double.signbit,
        Double.signed_zero]
    rw [bi_sub, this]
    decide
  have hc1 : compute_file pow Globals.init "/sub/0/0".toList 3 =
      ⟨"0\n".toList, some .bi_sub, .finite 0, .finite 0, 1⟩ := by
    rw [compute_file_miss pow _ _ _ (Or.inl (by decide)), ha1, hb1, hf]
    simp only [MathFn.call, hs1]
    rfl
  have hc2 : compute_file pow ⟨"0\n".toList, some .bi_sub, .finite 0, .finite 0, 1⟩
      "/sub/-0/0".toList 3 = ⟨"0\n".toList, some .bi_sub, .finite 0, .finite 0, 1⟩ := by
    apply compute_file_hit
    · decide
    · rw [ha2]; decide
    · rw [hb2]; decide
  have hc3 : compute_file pow Globals.init "/sub/-0/0".toList 3 =
      ⟨"-0\n".toList, some .bi_sub, .negzero, .finite 0, 1⟩ := by
    rw [compute_file_miss pow _ _ _ (Or.inl (by decide)), ha2, hb2, hf]
    simp only [MathFn.call, hs2]
    rfl
  refine ⟨ha2, ?_, ?_, ?_⟩
  · rw [mathfs_read_file pow _ _ _ _ (by rw [hf1]; decide) (by rw [hf1]; exact hp1), hf1, hc1]
    have : read_text "0\n".toList 3 0 = ⟨2, some "0\n".toList⟩ := by decide
    simp only [this]
  · rw [mathfs_read_file pow _ _ _ _ (by rw [hf2]; decide) (by rw [hf2]; exact hp2), hf2, hc2]
    have : read_text "0\n".toList 3 0 = ⟨2, some "0\n".toList⟩ := by decide
    simp only [this]
  · rw [mathfs_read_file pow _ _ _ _ (by rw [hf2]; decide) (by rw [hf2]; exact hp2), hf2, hc3]
    have : read_text "-0\n".toList 3 0 = ⟨3, some "-0\n".toList⟩ := by decide
    simp only [this]

theorem nan_trace (pow : Double → Double → Double) :
    mathfs_read pow Globals.init "/add/nan/1".toList 4 0 =
      (⟨"nan\n".toList, some .bi_add, .nan false, .finite ((1 : Nat) : ℚ), 1⟩,
        ⟨4, some "nan\n".toList⟩) ∧
    mathfs_read pow ⟨"nan\n".toList, some .bi_add, .nan false, .finite ((1 : Nat) : ℚ), 1⟩
        "/add/nan/1".toList 4 0 =
      (⟨"nan\n".toList, some .bi_add, .nan false, .finite ((1 : Nat) : ℚ), 2⟩,
        ⟨4, some "nan\n".toList⟩) := by
  have hf1 : find_builtin "/add/nan/1".toList = 2 := by decide
  have hp1 : pathType "/add/nan/1".toList 2 = .mf_file := by decide
  have ha : operand_a "/add/nan/1".toList 2 = .nan false := by decide
  have hb : operand_b "/add/nan/1".toList 2 = .finite ((1 : Nat) : ℚ) := by
    have h1 : (strtod ("/add/nan/1".toList.drop ((builtin 2).path.length + 1))).2.drop 1 =
        Nat.toDigits 10 1 ++ [] := by decide
    unfold operand_b
    rw [if_pos (by decide), h1, strtod_toDigits 1 (by decide) [] (fun x hx => by simp at hx)]
  have hf : (builtin 2).f = .bi_add := by decide
  have hs : ∀ y, bi_add (.nan false) y = "nan\n".toList := by
    intro y
    have : Double.add (.nan false) y = .nan false := by
      cases y <;> rfl
    rw [bi_add, this]
    decide
  have hne : ∀ y, Double.ne (.nan false) y = true := by
    intro y
    cases y <;> rfl
  have hr : read_text "nan\n".toList 4 0 = ⟨4, some "nan\n".toList⟩ := by decide
  constructor
  · rw [mathfs_read_file pow _ _ _ _ (by rw [hf1]; decide) (by rw [hf1]; exact hp1), hf1,
      compute_file_miss pow _ _ _ (Or.inl (by decide)), ha, hb, hf]
    simp only [MathFn.call, hs, hr]
    rfl
  · rw [mathfs_read_file pow _ _ _ _ (by rw [hf1]; decide) (by rw [hf1]; exact hp1), hf1,
      compute_file_miss pow _ _ _ (Or.inr (Or.inl (by rw [ha]; exact hne _))), ha, hb, hf]
    simp only [MathFn.call, hs, hr]

/-- C12: the memo slot is reread without a call when the function is the stored one and `!=`
finds no difference in `a` and in `b`; otherwise the function is called and the slot holds
the new function, operands and text; a second run for the same path makes no call when no
operand is a NaN. The comparison is `!=`, not equality of the bits, and the claim fails on
both sides: after a read of `/sub/0/0` a read of the file with operands `-0` and `0` makes no
call and serves `0\n`, though the operand `a` differs in its sign bit and the function gives
`-0\n` for it; and two reads of `/add/nan/1` in sequence make two calls for the same key. -/
theorem memo_slot_comparison (pow : Double → Double → Double) :
    (∀ (g : Globals) (path : List Char) (i : Nat), g.last_f = some (builtin i).f →
      Double.ne (operand_a path i) g.last_a = false →
      Double.ne (operand_b path i) g.last_b = false →
      compute_file pow g path i = g) ∧
    (∀ (g : Globals) (path : List Char) (i : Nat),
      (g.last_f ≠ some (builtin i).f ∨ Double.ne (operand_a path i) g.last_a = true ∨
        Double.ne (operand_b path i) g.last_b = true) →
      compute_file pow g path i =
        ⟨MathFn.call pow (builtin i).f (operand_a path i) (operand_b path i),
          some (builtin i).f, operand_a path i, operand_b path i, g.calls + 1⟩) ∧
    (∀ (g : Globals) (path : List Char) (i : Nat),
      Double.ne (operand_a path i) (operand_a path i) = false →
      Double.ne (operand_b path i) (operand_b path i) = false →
      compute_file pow (compute_file pow g path i) path i = compute_file pow g path i) ∧
    (operand_a "/sub/-0/0".toList 3 = .negzero ∧
      mathfs_read pow (mathfs_read pow Globals.init "/sub/0/0".toList 3 0).1
          "/sub/-0/0".toList 3 0 =
        (⟨"0\n".toList, some .bi_sub, .finite 0, .finite 0, 1⟩, ⟨2, some "0\n".toList⟩) ∧
      MathFn.call pow .bi_sub .negzero (.finite 0) = "-0\n".toList ∧
      mathfs_read pow Globals.init "/sub/-0/0".toList 3 0 =
        (⟨"-0\n".toList, some .bi_sub, .negzero, .finite 0, 1⟩, ⟨3, some "-0\n".toList⟩)) ∧
    ((mathfs_read pow Globals.init "/add/nan/1".toList 4 0).1 =
        ⟨"nan\n".toList, some .bi_add, .nan false, .finite ((1 : Nat) : ℚ), 1⟩ ∧
      (mathfs_read pow (mathfs_read pow Globals.init "/add/nan/1".toList 4 0).1
          "/add/nan/1".toList 4 0).1 =
        ⟨"nan\n".toList, some .bi_add, .nan false, .finite ((1 : Nat) : ℚ), 2⟩) := by
  obtain ⟨z1, z2, z3, z4⟩ := sub_zero_trace pow
  obtain ⟨n1, n2⟩ := nan_trace pow
  refine ⟨fun g path i => compute_file_hit pow g path i,
    fun g path i => compute_file_miss pow g path i,
    fun g path i => compute_file_twice pow g path i, ⟨z1, ?_, ?_, z4⟩, ⟨?_, ?_⟩⟩
  · rw [z2]
    exact z3
  · have h := congrArg (fun r => r.1.results_buf) z4
    have hc : compute_file pow Globals.init "/sub/-0/0".toList 3 =
        ⟨MathFn.call pow .bi_sub .negzero (.finite 0), some .bi_sub, .negzero, .finite 0, 1⟩ := by
      rw [compute_file_miss pow _ _ _ (Or.inl (by decide))]
      have ha2 : operand_a "/sub/-0/0".toList 3 = .negzero := z1
      have hb2 : operand_b "/sub/-0/0".toList 3 = .finite 0 := by decide
      rw [ha2, hb2]
      rfl
    rw [mathfs_read_file pow _ _ _ _ (by decide) (by decide)] at h
    have hf2 : find_builtin "/sub/-0/0".toList = 3 := by decide
    simp only [hf2, hc] at h
    exact h
  · rw [n1]
  · rw [n1]
    simp only [n2]

theorem memo_slot_comparison_witness :
    compute_file (fun _ _ => Double.finite 0)
        ⟨"0\n".toList, some .bi_sub, .finite 0, .finite 0, 1⟩ "/sub/-0/0".toList 3 =
      ⟨"0\n".toList, some .bi_sub, .finite 0, .finite 0, 1⟩ :=
  (memo_slot_comparison (fun _ _ => Double.finite 0)).1
    ⟨"0\n".toList, some .bi_sub, .finite 0, .finite 0, 1⟩ "/sub/-0/0".toList 3
    (by decide) (by decide) (by decide)

/-! ## Reading in chunks -/

theorem snprintf_length (text : List Char) : (snprintf maxbufsize text).length < maxbufsize := by
  unfold snprintf
  have hm : maxbufsize = 3600 := by decide
  rw [List.length_take, hm]
  omega

theorem call_length (pow : Double → Double → Double) (f : MathFn) (a b : Double) :
    (MathFn.call pow f a b).length < maxbufsize := by
  have hm : maxbufsize = 3600 := by decide
  cases f with
  | bi_factor =>
    have := (bi_factor_bounds a b).1
    simp only [MathFn.call]
    omega
  | bi_fib =>
    have := (bi_fib_text a b).1
    simp only [MathFn.call]
    omega
  | bi_add => exact snprintf_length _
  | bi_sub => exact snprintf_length _
  | bi_mul => exact snprintf_length _
  | bi_div =>
    simp only [MathFn.call, bi_div]
    split
    · decide
    · exact snprintf_length _
  | bi_exp => exact snprintf_length _

theorem compute_file_buf_length (pow : Double → Double → Double) (g : Globals)
    (path : List Char) (i : Nat) (hg : g.results_buf.length < maxbufsize) :
    (compute_file pow g path i).results_buf.length < maxbufsize := by
  rw [compute_file_eq]
  split
  · exact call_length pow _ _ _
  · exact hg

theorem read_text_past_end (text : List Char) (size off : Nat) (hoff : off < 2 ^ 64)
    (h : text.length ≤ off) : read_text text size (off : Int) = ⟨0, some []⟩ := by
  unfold read_text
  rw [offset_toNat off hoff, if_neg (by omega)]

theorem read_chunks_from (pow : Double → Double → Double) (path : List Char) (k : Nat)
    (hk : 1 ≤ k) (hk2 : k < 2 ^ 64) (h1 : find_builtin path < max_builtins)
    (h2 : pathType path (find_builtin path) = .mf_file) (T : List Char)
    (hT : T.length < maxbufsize) :
    ∀ (fuel : Nat) (g : Globals) (off : Nat),
      (compute_file pow g path (find_builtin path)).results_buf = T →
      (off = 0 ∨ off = k ∨ (2 * k ≤ off ∧ off - k < T.length)) →
      T.length - off < fuel →
      read_chunks pow fuel g path k off = T.drop off := by
  have hm : maxbufsize = 3600 := by decide
  intro fuel
  induction fuel with
  | zero => intro g off _ _ hf; omega
  | succ fuel ih =>
    intro g off hbuf hoff hf
    rw [read_chunks, mathfs_read_file pow g path k off h1 h2]
    simp only [hbuf]
    by_cases hin : off < T.length
    · have hr := read_text_of_no_wrap T k off (by omega) (by omega)
      rw [hr]
      simp only
      have hpos : ¬ (((min k (T.length - off) : Nat) : Int) ≤ 0) := by omega
      rw [if_neg hpos]
      have hnext := ih (compute_file pow g path (find_builtin path)) (off + k)
        (by rw [compute_file_buf_idem, hbuf]) (by omega) (by omega)
      rw [hnext, ← List.drop_drop, List.take_append_drop]
    · have hr := read_text_past_end T k off (by omega) (by omega)
      rw [hr]
      simp only [le_refl, if_true]
      rw [List.drop_of_length_le (by omega)]

/-- C9: for a path of a computed file, from any state of the memo slot (its buffer holding a
string shorter than the array) and for every chunk size `k ≥ 1`: the bytes of the reads of
size `k` at the offsets 0, `k`, `2 * k`, ... up to the first read that returns no byte are
the bytes of one read at offset 0 of the full length; and a second pass over the same path,
in one read or in chunks, gives the same bytes. -/
theorem chunked_reads (pow : Double → Double → Double) (g : Globals) (path : List Char)
    (k fuel size : Nat) (h1 : find_builtin path < max_builtins)
    (h2 : pathType path (find_builtin path) = .mf_file)
    (hg : g.results_buf.length < maxbufsize) (hk : 1 ≤ k) (hk2 : k < 2 ^ 64)
    (hfuel : maxbufsize ≤ fuel)
    (hsize : (compute_file pow g path (find_builtin path)).results_buf.length ≤ size)
    (hs2 : size < 2 ^ 64) :
    (mathfs_read pow g path size 0).2 =
      ⟨((compute_file pow g path (find_builtin path)).results_buf.length : Nat),
        some (compute_file pow g path (find_builtin path)).results_buf⟩ ∧
    (mathfs_read pow g path size 0).2.buf = some (read_chunks pow fuel g path k 0) ∧
    (mathfs_read pow (mathfs_read pow g path size 0).1 path size 0).2 =
      (mathfs_read pow g path size 0).2 ∧
    read_chunks pow fuel (mathfs_read pow g path size 0).1 path k 0 =
      read_chunks pow fuel g path k 0 := by
  have hm : maxbufsize = 3600 := by decide
  have hT := compute_file_buf_length pow g path (find_builtin path) hg
  have hone : ∀ g0 : Globals,
      (compute_file pow g0 path (find_builtin path)).results_buf =
        (compute_file pow g path (find_builtin path)).results_buf →
      (mathfs_read pow g0 path size 0).2 =
        ⟨((compute_file pow g path (find_builtin path)).results_buf.length : Nat),
          some (compute_file pow g path (find_builtin path)).results_buf⟩ := by
    intro g0 hg0
    rw [mathfs_read_file pow g0 path size 0 h1 h2]
    simp only [hg0]
    have hr := read_text_of_no_wrap (compute_file pow g path (find_builtin path)).results_buf
      size 0 (by omega) (by omega)
    simp only [Nat.cast_zero, List.drop_zero, Nat.sub_zero] at hr
    rw [hr, List.take_of_length_le hsize, Nat.min_eq_right hsize]
  have hchunks : ∀ g0 : Globals,
      (compute_file pow g0 path (find_builtin path)).results_buf =
        (compute_file pow g path (find_builtin path)).results_buf →
      read_chunks pow fuel g0 path k 0 =
        (compute_file pow g path (find_builtin path)).results_buf := by
    intro g0 hg0
    have h := read_chunks_from pow path k hk hk2 h1 h2 _ hT fuel g0 0 hg0 (Or.inl rfl)
      (by omega)
    simpa using h
  have hstate : (mathfs_read pow g path size 0).1 =
      compute_file pow g path (find_builtin path) := by
    rw [mathfs_read_file pow g path size 0 h1 h2]
  have hidem := compute_file_buf_idem pow g path (find_builtin path)
  refine ⟨hone g rfl, ?_, ?_, ?_⟩
  · rw [hone g rfl, hchunks g rfl]
  · rw [hstate, hone _ hidem, hone g rfl]
  · rw [hstate, hchunks _ hidem, hchunks g rfl]

theorem chunked_reads_witness :
    (mathfs_read (fun _ _ => Double.finite 0) Globals.init "/fib/10".toList 3600 0).2.buf =
      some (read_chunks (fun _ _ => Double.finite 0) 3600 Globals.init "/fib/10".toList 7 0) :=
  (chunked_reads (fun _ _ => Double.finite 0) Globals.init "/fib/10".toList 7 3600 3600
    (by decide) (by decide) (by decide) (by decide) (by decide) (by decide)
    (Nat.le_of_lt (compute_file_buf_length _ _ _ _ (by decide))) (by decide)).2.1

/-! ## The size of the values and the length of a line -/

/-- The value of `floor_log`: for `n / d ≥ 1` it is the `L` with `d * b ^ L ≤ n < d * b ^ (L + 1)`,
for `n / d < 1` it is `-(K + 1)` with `n * b ^ K < d ≤ n * b ^ (K + 1)`. -/
theorem floor_log_spec (b n d : Nat) (hb : 2 ≤ b) (hn : 0 < n) (hd : 0 < d) :
    (d ≤ n ∧ ∃ L : Nat, floor_log b n d = (L : Int) ∧ d * b ^ L ≤ n ∧ n < d * b ^ (L + 1)) ∨
    (n < d ∧ ∃ K : Nat, floor_log b n d = -((K : Int) + 1) ∧ n * b ^ K < d ∧
      d ≤ n * b ^ (K + 1)) := by
  unfold floor_log
  by_cases h : d ≤ n
  · left
    refine ⟨h, Nat.log b (n / d), ?_, ?_, ?_⟩
    · rw [if_pos h, ilog_eq_log b hb _ _ le_rfl]
    · have h1 : b ^ Nat.log b (n / d) ≤ n / d :=
        Nat.pow_log_le_self b (Nat.div_pos h hd).ne'
      calc d * b ^ Nat.log b (n / d) ≤ d * (n / d) := Nat.mul_le_mul_left d h1
        _ ≤ n := Nat.mul_div_le n d
    · have h1 : n / d < b ^ (Nat.log b (n / d) + 1) := Nat.lt_pow_succ_log_self (by omega) _
      rw [Nat.mul_comm]
      exact (Nat.div_lt_iff_lt_mul hd).1 h1
  · right
    have hlt : n < d := by omega
    refine ⟨hlt, Nat.log b ((d - 1) / n), ?_, ?_, ?_⟩
    · rw [if_neg h, ilog_eq_log b hb _ _ le_rfl]
    · have hpos : 0 < (d - 1) / n := Nat.div_pos (by omega) hn
      have h1 : b ^ Nat.log b ((d - 1) / n) ≤ (d - 1) / n := Nat.pow_log_le_self b hpos.ne'
      have h2 : n * b ^ Nat.log b ((d - 1) / n) ≤ n * ((d - 1) / n) := Nat.mul_le_mul_left n h1
      have h3 : n * ((d - 1) / n) ≤ d - 1 := Nat.mul_div_le (d - 1) n
      omega
    · have h1 : (d - 1) / n < b ^ (Nat.log b ((d - 1) / n) + 1) :=
        Nat.lt_pow_succ_log_self (by omega) _
      have h2 : d - 1 < b ^ (Nat.log b ((d - 1) / n) + 1) * n :=
        (Nat.div_lt_iff_lt_mul hn).1 h1
      rw [Nat.mul_comm]
      omega

theorem abs_eq_natAbs_div (q : ℚ) : |q| = (q.num.natAbs : ℚ) / (q.den : ℚ) := by
  have h1 : ((q.num.natAbs : Nat) : ℚ) = |(q.num : ℚ)| := by
    rw [← Int.cast_abs, ← Int.natCast_natAbs, Int.cast_natCast]
  have h2 : |(q.den : ℚ)| = (q.den : ℚ) := abs_of_nonneg (Nat.cast_nonneg _)
  conv_lhs => rw [← Rat.num_div_den q]
  rw [abs_div, h1, h2]

theorem round_half_even_close (n d : Nat) (hd : 0 < d) :
    2 * (round_half_even n d * d) ≤ 2 * n + d ∧ 2 * n ≤ 2 * (round_half_even n d * d) + d := by
  have h1 : d * (n / d) + n % d = n := Nat.div_add_mod n d
  have h2 : n % d < d := Nat.mod_lt n hd
  have h3 : n / d * d = d * (n / d) := Nat.mul_comm _ _
  have h4 : (n / d + 1) * d = d * (n / d) + d := by rw [Nat.add_mul, Nat.one_mul, h3]
  unfold round_half_even
  split
  · rw [h3]; constructor <;> omega
  · split
    · rw [h4]; constructor <;> omega
    · split
      · rw [h3]; constructor <;> omega
      · rw [h4]; constructor <;> omega

/-- The quotient of two naturals as a reduced fraction. -/
theorem quotient_fraction (i div : Nat) (hdiv : 0 < div) (hi : 0 < i) :
    ((i : ℚ) / (div : ℚ)).num.natAbs * div = i * ((i : ℚ) / (div : ℚ)).den ∧
    ((i : ℚ) / (div : ℚ)).den ≤ div ∧ 0 < ((i : ℚ) / (div : ℚ)).num.natAbs := by
  have hdq : (0 : ℚ) < (div : ℚ) := by exact_mod_cast hdiv
  have hiq : (0 : ℚ) < (i : ℚ) := by exact_mod_cast hi
  have hq : (0 : ℚ) < (i : ℚ) / (div : ℚ) := div_pos hiq hdq
  have hden : (0 : ℚ) < ((((i : ℚ) / (div : ℚ)).den : Nat) : ℚ) := by
    exact_mod_cast ((i : ℚ) / (div : ℚ)).den_pos
  have habs := abs_eq_natAbs_div ((i : ℚ) / (div : ℚ))
  rw [abs_of_pos hq, div_eq_div_iff hdq.ne' hden.ne'] at habs
  have hcross : ((i : ℚ) / (div : ℚ)).num.natAbs * div = i * ((i : ℚ) / (div : ℚ)).den := by
    have : (((((i : ℚ) / (div : ℚ)).num.natAbs * div : Nat)) : ℚ) =
        ((i * ((i : ℚ) / (div : ℚ)).den : Nat) : ℚ) := by
      push_cast
      linarith
    exact_mod_cast this
  have hnpos : 0 < ((i : ℚ) / (div : ℚ)).num.natAbs :=
    Int.natAbs_pos.2 (Rat.num_ne_zero.2 hq.ne')
  refine ⟨hcross, ?_, hnpos⟩
  have hcop : Nat.Coprime ((i : ℚ) / (div : ℚ)).num.natAbs ((i : ℚ) / (div : ℚ)).den :=
    ((i : ℚ) / (div : ℚ)).reduced
  have hdvd : ((i : ℚ) / (div : ℚ)).den ∣ ((i : ℚ) / (div : ℚ)).num.natAbs * div :=
    ⟨i, by rw [hcross, Nat.mul_comm]⟩
  exact Nat.le_of_dvd hdiv (hcop.symm.dvd_of_dvd_mul_left hdvd)

theorem scaled_round_neg (b n d F : Nat) (hF : 0 < F) :
    scaled_round b n d (-(F : Int)) = round_half_even (n * b ^ F) d := by
  unfold scaled_round
  rw [if_neg (by omega)]
  simp

theorem scale_neg_exp (m b F : Nat) (hF : 0 < F) :
    scale m b (-(F : Int)) = (m : ℚ) / ((b ^ F : Nat) : ℚ) := by
  unfold scale
  rw [if_neg (by omega)]
  simp

/-- The rounding of a quotient `i / div ≥ 1` of naturals below 2^32: a numerator `m` over a
power of two `2 ^ F`, where `m` is the rounded `n * 2 ^ F / d` for the reduced fraction
`n / d` of the quotient, and `2 ^ 53 ≤ 2 ^ (F + 1) * n / d`. -/
theorem round64_quotient (i div : Nat) (hdiv : 0 < div) (hle : div ≤ i) (hlt : i < 2 ^ 32) :
    ∃ L F : Nat, L + F = 52 ∧ 0 < F ∧
      ((i : ℚ) / (div : ℚ)).den * 2 ^ L ≤ ((i : ℚ) / (div : ℚ)).num.natAbs ∧
      ((i : ℚ) / (div : ℚ)).num.natAbs ≤ i ∧
      round64 ((i : ℚ) / (div : ℚ)) =
        .finite ((round_half_even (((i : ℚ) / (div : ℚ)).num.natAbs * 2 ^ F)
          ((i : ℚ) / (div : ℚ)).den : Nat) / ((2 ^ F : Nat) : ℚ)) := by
  have hi : 0 < i := by omega
  obtain ⟨hcross, hden, hnpos⟩ := quotient_fraction i div hdiv hi
  have hdq : (0 : ℚ) < (div : ℚ) := by exact_mod_cast hdiv
  have hiq : (0 : ℚ) < (i : ℚ) := by exact_mod_cast hi
  have hq : (0 : ℚ) < (i : ℚ) / (div : ℚ) := div_pos hiq hdq
  generalize hn : ((i : ℚ) / (div : ℚ)).num.natAbs = n at hcross hnpos ⊢
  have hdpos : 0 < ((i : ℚ) / (div : ℚ)).den := ((i : ℚ) / (div : ℚ)).den_pos
  generalize hd : ((i : ℚ) / (div : ℚ)).den = d at hcross hden hdpos ⊢
  have hdn : d ≤ n := by
    have : d * div ≤ n * div := by
      rw [hcross]
      calc d * div ≤ d * i := Nat.mul_le_mul_left d hle
        _ = i * d := Nat.mul_comm _ _
    exact Nat.le_of_mul_le_mul_right this hdiv
  have hni : n ≤ i := by
    have : n * div ≤ i * div := by
      rw [hcross]
      exact Nat.mul_le_mul_left i hden
    exact Nat.le_of_mul_le_mul_right this hdiv
  rcases floor_log_spec 2 n d le_rfl hnpos hdpos with ⟨_, L, hL, hlow, _⟩ | ⟨hcon, _⟩
  · have hL32 : L < 32 := by
      have h1 : 2 ^ L ≤ d * 2 ^ L := Nat.le_mul_of_pos_left _ hdpos
      have h2 : 2 ^ L < 2 ^ 32 := by omega
      exact (Nat.pow_lt_pow_iff_right (by decide)).1 h2
    refine ⟨L, 52 - L, by omega, by omega, hlow, hni, ?_⟩
    have he : max (floor_log 2 n d - 52) (-1074) = -((52 - L : Nat) : Int) := by
      rw [hL]
      omega
    have hm := (round_half_even_close (n * 2 ^ (52 - L)) d hdpos).2
    have hm0 : round_half_even (n * 2 ^ (52 - L)) d ≠ 0 := by
      intro h0
      rw [h0] at hm
      have h1 : d ≤ n * 2 ^ (52 - L) :=
        le_trans hdn (Nat.le_mul_of_pos_right _ (Nat.pow_pos (by decide)))
      omega
    unfold round64
    rw [if_neg hq.ne']
    simp only [hn, hd, he, scaled_round_neg 2 n d (52 - L) (by omega), if_neg hm0,
      if_neg (not_lt.2 hq.le), scale_neg_exp _ 2 (52 - L) (by omega)]
    rw [if_neg (by omega)]
  · omega

theorem div_natCast (i div : Nat) (hdiv : 0 < div) (hi : 0 < i) :
    Double.div (.finite (i : ℚ)) (.finite (div : ℚ)) = round64 ((i : ℚ) / (div : ℚ)) := by
  have hdq : (div : ℚ) ≠ 0 := by exact_mod_cast hdiv.ne'
  have hiq : (i : ℚ) ≠ 0 := by exact_mod_cast hi.ne'
  simp only [Double.div, Double.toRat, if_neg hdq, if_neg hiq]

/-- For `div ≤ i < 2^32` with `div` not dividing `i`, the `double` quotient `i / div` has a
fractional part other than zero. -/
theorem quotient_fract_ne_zero (i div : Nat) (hdiv : 0 < div) (hle : div ≤ i)
    (hlt : i < 2 ^ 32) (h : ¬ div ∣ i) :
    Double.ne (Double.modf (Double.div (.finite (i : ℚ)) (.finite (div : ℚ)))).1
      (Double.ofInt 0) = true := by
  have hi : 0 < i := by omega
  obtain ⟨hcross, _, _⟩ := quotient_fraction i div hdiv hi
  obtain ⟨L, F, hLF, hF, hlow, hni, hr⟩ := round64_quotient i div hdiv hle hlt
  have hdpos : 0 < ((i : ℚ) / (div : ℚ)).den := ((i : ℚ) / (div : ℚ)).den_pos
  generalize ((i : ℚ) / (div : ℚ)).num.natAbs = n at hcross hlow hni hr
  generalize ((i : ℚ) / (div : ℚ)).den = d at hcross hlow hdpos hr
  obtain ⟨hm1, hm2⟩ := round_half_even_close (n * 2 ^ F) d hdpos
  generalize round_half_even (n * 2 ^ F) d = m at hm1 hm2 hr
  have hP : (0 : ℚ) < ((2 ^ F : Nat) : ℚ) := by
    have : 0 < 2 ^ F := Nat.pow_pos (by decide)
    exact_mod_cast this
  have hnonint : ∀ z : Int, (m : ℚ) / ((2 ^ F : Nat) : ℚ) ≠ (z : ℚ) := by
    intro z hz
    rw [div_eq_iff hP.ne'] at hz
    have hz0 : 0 ≤ z := by
      by_contra hneg
      have h1 : (z : ℚ) < 0 := by exact_mod_cast (by omega : z < 0)
      have h2 : (z : ℚ) * ((2 ^ F : Nat) : ℚ) < 0 := mul_neg_of_neg_of_pos h1 hP
      have h3 : (0 : ℚ) ≤ (m : ℚ) := Nat.cast_nonneg m
      linarith
    obtain ⟨t, rfl⟩ : ∃ t : Nat, z = (t : Int) := ⟨z.toNat, (Int.toNat_of_nonneg hz0).symm⟩
    have hmt : m = t * 2 ^ F := by
      have : ((m : Nat) : ℚ) = ((t * 2 ^ F : Nat) : ℚ) := by
        rw [hz]
        push_cast
        ring
      exact_mod_cast this
    have hpow : 2 * 2 ^ F * 2 ^ L = 2 ^ 53 := by
      rw [Nat.mul_comm 2, ← Nat.pow_succ, ← Nat.pow_add]
      congr 1
      omega
    have hmd : m * d = 2 ^ F * (t * d) := by rw [hmt]; ring
    have hnd : n * 2 ^ F = 2 ^ F * n := Nat.mul_comm _ _
    rw [hmd, hnd] at hm1 hm2
    have hbig : 2 * 2 ^ F ≤ d → False := by
      intro hd2
      have h1 : 2 * 2 ^ F * 2 ^ L ≤ d * 2 ^ L := Nat.mul_le_mul_right _ hd2
      have h2 : (2 : Nat) ^ 32 < 2 ^ 53 := by decide
      omega
    rcases Nat.lt_trichotomy (t * d) n with hlt' | heq | hgt
    · have h1 : 2 ^ F * (t * d + 1) ≤ 2 ^ F * n := Nat.mul_le_mul_left _ hlt'
      rw [Nat.mul_add, Nat.mul_one] at h1
      exact hbig (by omega)
    · apply h
      have h1 : t * div * d = i * d := by
        rw [← hcross, ← heq]
        ring
      exact ⟨t, by rw [Nat.mul_comm]; exact (Nat.eq_of_mul_eq_mul_right hdpos h1).symm⟩
    · have h1 : 2 ^ F * (n + 1) ≤ 2 ^ F * (t * d) := Nat.mul_le_mul_left _ hgt
      rw [Nat.mul_add, Nat.mul_one] at h1
      exact hbig (by omega)
  rw [div_natCast i div hdiv hi, hr]
  simp only [Double.modf]
  rw [if_neg (fun h0 => hnonint _ (sub_eq_zero.1 h0))]
  have hne : (m : ℚ) / ((2 ^ F : Nat) : ℚ) -
      ((((m : ℚ) / ((2 ^ F : Nat) : ℚ)).num.tdiv
        (((m : ℚ) / ((2 ^ F : Nat) : ℚ)).den : Int) : Int) : ℚ) ≠ 0 :=
    fun h0 => hnonint _ (sub_eq_zero.1 h0)
  simp only [Double.ne, Double.eq, Double.ofInt, Double.toRat, Int.cast_zero]
  rw [decide_eq_false hne]
  rfl

theorem quotient_exact (i div : Nat) (hdiv : 0 < div) (hi : 0 < i) (hlt : i < 2 ^ 53)
    (h : div ∣ i) :
    Double.div (.finite (i : ℚ)) (.finite (div : ℚ)) = .finite ((i / div : Nat) : ℚ) := by
  rw [div_natCast i div hdiv hi]
  have hdq : (div : ℚ) ≠ 0 := by exact_mod_cast hdiv.ne'
  rw [← Nat.cast_div h hdq]
  exact round64_natCast _ (lt_of_le_of_lt (Nat.div_le_self i div) hlt)

theorem quotient_fract_zero (i div : Nat) (hdiv : 0 < div) (hi : 0 < i) (hlt : i < 2 ^ 53)
    (h : div ∣ i) :
    Double.ne (Double.modf (Double.div (.finite (i : ℚ)) (.finite (div : ℚ)))).1
      (Double.ofInt 0) = false := by
  rw [quotient_exact i div hdiv hi hlt h, modf_natCast]
  simp [Double.ne, Double.eq, Double.ofInt, Double.toRat]

theorem lt_natCast (a b : Nat) :
    Double.lt (.finite (a : ℚ)) (.finite (b : ℚ)) = decide (a < b) := by
  simp [Double.lt, Double.toRat]

theorem ofInt_one : Double.ofInt 1 = .finite ((1 : Nat) : ℚ) := by
  simp [Double.ofInt]

theorem ofInt_two : Double.ofInt 2 = .finite ((2 : Nat) : ℚ) := by
  simp [Double.ofInt]

/-- On integers `2 ≤ div ≤ i < 2^32` the loop on `double`s does what `factor_loop` does. -/
theorem factor_loop_double_eq (i : Nat) : ∀ (div fuel : Nat) (buf : List Char) (iters : Nat),
    2 ≤ div → div ≤ i → i < 2 ^ 32 → i - div < fuel →
    factor_loop_double fuel (.finite (i : ℚ)) (.finite (div : ℚ))
      (Double.modf (Double.div (.finite (i : ℚ)) (.finite (div : ℚ)))).1 buf iters =
      some (factor_loop i div buf iters) := by
  induction i using Nat.strong_induction_on with
  | _ i ihi =>
    suffices inner : ∀ (k div fuel : Nat) (buf : List Char) (iters : Nat), i - div = k →
        2 ≤ div → div ≤ i → i < 2 ^ 32 → i - div < fuel →
        factor_loop_double fuel (.finite (i : ℚ)) (.finite (div : ℚ))
          (Double.modf (Double.div (.finite (i : ℚ)) (.finite (div : ℚ)))).1 buf iters =
          some (factor_loop i div buf iters) from
      fun div fuel buf iters => inner (i - div) div fuel buf iters rfl
    intro k
    induction k using Nat.strong_induction_on with
    | _ k ihk =>
      intro div fuel buf iters hk hdiv hle hi hfuel
      obtain ⟨fuel, rfl⟩ : ∃ f, fuel = f + 1 := ⟨fuel - 1, by omega⟩
      rw [factor_loop_double, factor_loop, lt_natCast]
      by_cases hlt : div < i
      · rw [if_pos (by simpa using hlt), if_pos hlt]
        by_cases hmod : i % div ≠ 0
        · have hnd : ¬ div ∣ i := fun hd => hmod (Nat.mod_eq_zero_of_dvd hd)
          rw [quotient_fract_ne_zero i div (by omega) hle hi hnd, if_pos rfl, if_pos hmod,
            ofInt_one, add_natCast div 1 (by omega)]
          exact ihk (i - (div + 1)) (by omega) (div + 1) fuel buf (iters + 1) rfl (by omega)
            (by omega) hi (by omega)
        · have hd : div ∣ i := Nat.dvd_of_mod_eq_zero (by omega)
          rw [quotient_fract_zero i div (by omega) (by omega) (by omega) hd,
            if_neg (by decide), if_neg hmod,
            quotient_exact i div (by omega) (by omega) (by omega) hd, ofInt_two,
            toUInt32_natCast div (by omega)]
          obtain ⟨m, hm⟩ := hd
          have hm2 : 2 ≤ m := by
            by_contra hcon
            have : m = 0 ∨ m = 1 := by omega
            rcases this with h | h <;> subst h <;> omega
          have hquot : i / div = m := by
            rw [hm]
            exact Nat.mul_div_cancel_left m (by omega)
          have hlt2 : i / div < i := Nat.div_lt_self (by omega) (by omega)
          have h3 : div * 2 ≤ div * m := Nat.mul_le_mul_left div hm2
          have h4 : 2 * m ≤ div * m := Nat.mul_le_mul_right m hdiv
          exact ihi (i / div) hlt2 2 fuel (printint div buf) (iters + 1) le_rfl (by omega)
            (by omega) (by omega)
      · rw [if_neg (by simpa using hlt), if_neg hlt, toUInt32_natCast i (by omega)]

/-- The function `bi_factor` with its loop on `double`s ends within 1000000000 executions
of the loop body and gives what `bi_factor_run` gives, for every operand. -/
theorem bi_factor_double_eq (fuel : Nat) (a b : Double) (hfuel : 1000000000 ≤ fuel) :
    bi_factor_double fuel a b = some (bi_factor_run a b) := by
  unfold bi_factor_double bi_factor_run
  by_cases h1 : Double.ne (Double.modf a).1 (Double.ofInt 0) = true
  · rw [if_pos h1, if_pos h1]
  · rw [if_neg h1, if_neg h1]
    by_cases h2 : Double.gt (Double.modf a).2 (Double.ofInt maxfactor) = true
    · rw [if_pos h2, if_pos h2]
    · rw [if_neg h2, if_neg h2]
      by_cases h3 : Double.lt (Double.ofInt 2) (Double.modf a).2 = true
      · obtain ⟨n, hn3, hn, he⟩ := intpart_in_range a h3 (by simpa using h2)
        rw [if_pos h3, he, toUInt32_natCast n (by omega), ofInt_two]
        exact factor_loop_double_eq n 2 fuel [] 0 le_rfl (by omega) (by omega) (by omega)
      · obtain ⟨fuel, rfl⟩ : ∃ f, fuel = f + 1 := ⟨fuel - 1, by omega⟩
        rw [if_neg h3, factor_loop_double, if_neg h3]

/-- C19: for an integer operand `n` with `0 ≤ n ≤ 1000000000` the loop of `bi_factor` runs
at most `n` rounds and then ends; for an operand with a fractional part or above the maximum
it does not run at all; the loop of `bi_fib` runs at most 47 rounds for every operand. The
loop of `bi_factor` as the source has it, on `double`s, ends within 1000000000 rounds for
every operand and gives what the loop on the integers gives. -/
theorem loops_bounded :
    (∀ (n : Nat) (b : Double), n ≤ 1000000000 → (bi_factor_run (.finite (n : ℚ)) b).2 ≤ n) ∧
    (∀ a b : Double,
      Double.ne (Double.modf a).1 (Double.ofInt 0) = true ∨
        Double.gt (Double.modf a).2 (Double.ofInt maxfactor) = true →
      (bi_factor_run a b).2 = 0) ∧
    (∀ a b : Double, (bi_fib_run a b).2 ≤ 47) ∧
    (∀ (a b : Double) (fuel : Nat), 1000000000 ≤ fuel →
      bi_factor_double fuel a b = some (bi_factor_run a b)) := by
  refine ⟨fun n b hn => ?_, fun a b h => ?_, bi_fib_run_iters,
    fun a b fuel hfuel => bi_factor_double_eq fuel a b hfuel⟩
  · by_cases h2 : 2 ≤ n
    · rw [bi_factor_run_natCast n b h2 hn]
      have := factor_loop_iters n 2 [] 0 le_rfl h2
      omega
    · have hlt : Double.lt (Double.ofInt 2) (Double.finite (n : ℚ)) = false := by
        have : ¬ ((2 : ℚ) < (n : ℚ)) := by
          rw [not_lt]
          exact_mod_cast (by omega : n ≤ 2)
        simp [Double.lt, Double.ofInt, Double.toRat, this]
      unfold bi_factor_run
      rw [modf_natCast, hlt]
      split
      · exact Nat.zero_le _
      · split
        · exact Nat.zero_le _
        · simp
  · unfold bi_factor_run
    rcases h with h | h
    · rw [if_pos h]
    · split
      · rfl
      · rfl

theorem loops_bounded_witness :
    (bi_factor_run (.finite ((97 : Nat) : ℚ)) (.finite 0)).2 ≤ 97 ∧
    (bi_factor_run (.inf false) (.finite 0)).2 = 0 :=
  ⟨loops_bounded.1 97 (.finite 0) (by decide),
   loops_bounded.2.1 (.inf false) (.finite 0) (Or.inr (by decide))⟩

end Mathfs
